import Mathlib

/-!
Shallow embedding of the top-down query evaluator (eval package, src/repl/errors.go)
of a datalog-like policy engine.

Conventions of the embedding:

* The `opalog` term model, the `hashMap` bindings store, the `Storage` backend and
  the index sub-interface are declared and called by the source but their code is
  not part of the repository snapshot; they are modelled from the specification and
  each such definition carries a doc comment starting with `Modelled from the spec:`.
* A Go `Term` is a `Value` plus a source location; locations play no role in
  evaluation, so terms collapse to values here.
* The source is written in continuation-passing style: an evaluation function calls
  a `TopDownIterator` for every context it emits and any error returned by a callee
  (iterator included) aborts the enumeration.  The embedding renders this by
  returning `Except EvalErr (List Ctx)`: the list holds the emitted contexts in
  emission order, and the caller folds its own continuation over that list with the
  same abort-on-error behaviour (`seqE`).
* Go's unbounded recursion through rule bodies is rendered with a fuel parameter;
  exhausted fuel is the distinguished error `EvalErr.outOfFuel`.
* Go panics (nil dereference, failed type assertion, explicit `panic`) are rendered
  as the distinguished error `EvalErr.goPanic`.
* `TopDownContext.Previous` and the tracer only feed diagnostics, never evaluation;
  they are dropped from `Ctx`.
* Go `float64` numbers are rendered as `Int`; no arithmetic built-in exists in this
  snapshot, numbers are only compared structurally.
-/

set_option autoImplicit false

namespace Opa

/-- Modelled from the spec: the term/value model (§3).  A value is one of Null,
Boolean, Number, String, Variable, Array, Object (ordered pairs) or Reference
(sequence of terms whose head names a document root). -/
inductive Value where
  | null
  | bool (b : Bool)
  | num (n : Int)
  | str (s : String)
  | var (x : String)
  | ref (ts : List Value)
  | arr (ts : List Value)
  | obj (ps : List (Value × Value))

mutual

/-- Modelled from the spec: structural equality, recursive through composites,
order-insensitive on object pairs (§4.1). -/
def valueEqual : Value → Value → Bool
  | .null, .null => true
  | .bool a, .bool b => a == b
  | .num a, .num b => a == b
  | .str a, .str b => a == b
  | .var a, .var b => a == b
  | .ref a, .ref b => valueEqualList a b
  | .arr a, .arr b => valueEqualList a b
  | .obj a, .obj b => a.length == b.length && valueEqualPairs a b
  | _, _ => false

def valueEqualList : List Value → List Value → Bool
  | [], [] => true
  | a :: as_, b :: bs => valueEqual a b && valueEqualList as_ bs
  | _, _ => false

def valueEqualPairs : List (Value × Value) → List (Value × Value) → Bool
  | [], _ => true
  | (k, v) :: ps, b =>
      b.any (fun q => valueEqual k q.1 && valueEqual v q.2) && valueEqualPairs ps b

end

mutual

/-- Modelled from the spec: a value is ground iff it contains no Variable; a
reference is ground iff all its selector terms are ground — the head is the
variable naming a document root and is exempt (§3, §4.3). -/
def isGround : Value → Bool
  | .null => true
  | .bool _ => true
  | .num _ => true
  | .str _ => true
  | .var _ => false
  | .ref [] => true
  | .ref (_ :: ts) => isGroundList ts
  | .arr ts => isGroundList ts
  | .obj ps => isGroundPairs ps

def isGroundList : List Value → Bool
  | [] => true
  | t :: ts => isGround t && isGroundList ts

def isGroundPairs : List (Value × Value) → Bool
  | [] => true
  | (k, v) :: ps => isGround k && isGround v && isGroundPairs ps

end

mutual

/-- walkValue invokes the iterator for each AST value contained inside the supplied
AST value; composites are traversed, scalars and variables are visited.  The walk
stops early when the iterator returns true (src walkValue). -/
def walkValue : Value → (Value → Bool) → Bool
  | .ref ts, f => walkValueList ts f
  | .arr ts, f => walkValueList ts f
  | .obj ps, f => walkValuePairs ps f
  | v, f => f v

def walkValueList : List Value → (Value → Bool) → Bool
  | [], _ => false
  | t :: ts, f => walkValue t f || walkValueList ts f

def walkValuePairs : List (Value × Value) → (Value → Bool) → Bool
  | [], _ => false
  | (k, v) :: ps, f => walkValue k f || walkValue v f || walkValuePairs ps f

end

/-- Modelled from the spec: an expression's terms are either a single term or an
operator term followed by operands (§3). -/
inductive Terms where
  | single (t : Value)
  | ops (ts : List Value)

/-- Modelled from the spec: an expression is a negation flag plus terms (§3). -/
structure Expr where
  negated : Bool
  terms : Terms

/-- Modelled from the spec: the complement is a non-negated copy of the
expression (§4.5.2). -/
def Expr.complement (e : Expr) : Expr := { e with negated := false }

/-- A body is an ordered list of expressions (§3). -/
abbrev Body := List Expr

/-- Modelled from the spec: a rule has a name, an optional key term, an optional
value term and a body (§3). -/
structure Rule where
  name : String
  key : Option Value
  value : Option Value
  body : Body

inductive DocKind where
  | completeDoc
  | partialObjectDoc
  | partialSetDoc

/-- Modelled from the spec: Complete — no key; Partial object — key and value both
present; Partial set — key only (§3). -/
def Rule.docKind (r : Rule) : DocKind :=
  match r.key, r.value with
  | none, _ => .completeDoc
  | some _, some _ => .partialObjectDoc
  | some _, none => .partialSetDoc

/-- Modelled from the spec: the language-neutral values Go stores in an
`interface` — JSON-shaped nodes plus, at virtual paths, the rule set collocated
there (§4.4, §6). -/
inductive Interface where
  | null
  | bool (b : Bool)
  | num (n : Int)
  | str (s : String)
  | arr (xs : List Interface)
  | obj (kvs : List (String × Interface))
  | rules (rs : List Rule)

mutual

/-- Modelled from the spec: comparison of language-neutral values (the source's
`Compare(av, bv) == 0`): recursive through composites, order-insensitive on map
entries (§4.5.1).  Rule sets are not language-neutral JSON; comparing them lies
outside the spec and is modelled as inequality. -/
def interfaceEqual : Interface → Interface → Bool
  | .null, .null => true
  | .bool a, .bool b => a == b
  | .num a, .num b => a == b
  | .str a, .str b => a == b
  | .arr a, .arr b => interfaceEqualList a b
  | .obj a, .obj b => a.length == b.length && interfaceEqualPairs a b
  | _, _ => false

def interfaceEqualList : List Interface → List Interface → Bool
  | [], [] => true
  | a :: as_, b :: bs => interfaceEqual a b && interfaceEqualList as_ bs
  | _, _ => false

def interfaceEqualPairs : List (String × Interface) → List (String × Interface) → Bool
  | [], _ => true
  | (k, v) :: ps, b =>
      b.any (fun q => k == q.1 && interfaceEqual v q.2) && interfaceEqualPairs ps b

end

/-- Modelled from the spec: a storage path element is a string or a number
(§4.4, §6). -/
inductive PathElem where
  | str (s : String)
  | num (n : Int)
  deriving DecidableEq

abbrev Path := List PathElem

/-- Modelled from the spec: `NotFound` is distinguished from other storage
errors (§4.4, §7). -/
inductive StorageError where
  | notFound
  | internal (msg : String)

/-- Errors produced inside the evaluator proper (src functions below the query
entry points), per the error taxonomy of §7 plus the fuel and panic conventions
of this embedding. -/
inductive EvalErr where
  | outOfFuel
  | goPanic (msg : String)
  | storage (e : StorageError)
  | nonGroundPath (v : Value)
  | unboundVariable (v : Value)
  | objectVariableKey (k : Value)
  | objectNonStringKey (k : Value)
  | nonStringObjectKey (k : Interface)
  | implicitCast (v : Value)
  | nonComposite (ref : List Value) (path : List Value)
  | notImplemented (ref : List Value)
  | cannotDereference (ref : List Value)
  | indexBuildFailed (inner : EvalErr)

/-- Errors surfaced by the query entry points: an evaluator error, the
multiple-conflicting-rules error of topDownQueryCompleteDoc, or the non-string
result key error of topDownQueryPartialObjectDoc (§7). -/
inductive Err where
  | eval (e : EvalErr)
  | multipleConflictingRules (name : String)
  | nonStringResultKey (k : Interface)

/-- Modelled from the spec: the store is consumed through
`get(path) -> Value | RuleSet | NotFound | Error` (§6); it is rendered as a table
from paths to results, `NotFound` for absent paths. -/
structure Storage where
  data : List (Path × Except StorageError Interface)

/-- Modelled from the spec: path-based lookup into the store (§4.4, §6). -/
def storeGet (store : Storage) (path : Path) : Except StorageError Interface :=
  match store.data.lookup path with
  | some r => r
  | none => .error .notFound

/-- Modelled from the spec: the reference's underlying path — the head variable
names the document root, the remaining terms must be strings or numbers
(§4.4, §6). -/
def underlyingSelectors : List Value → Except EvalErr Path
  | [] => .ok []
  | .str s :: rest => (underlyingSelectors rest).map (PathElem.str s :: ·)
  | .num n :: rest => (underlyingSelectors rest).map (PathElem.num n :: ·)
  | v :: _ => .error (.nonGroundPath v)

/-- Modelled from the spec: see underlyingSelectors. -/
def underlying : List Value → Except EvalErr Path
  | [] => .ok []
  | .var x :: rest => (underlyingSelectors rest).map (PathElem.str x :: ·)
  | v :: _ => .error (.nonGroundPath v)

/-- lookup resolves a reference's underlying path through storage
(src lookup). -/
def lookup (store : Storage) (ref : List Value) : Except EvalErr Interface :=
  match underlying ref with
  | .error e => .error e
  | .ok path =>
    match storeGet store path with
    | .ok n => .ok n
    | .error e => .error (.storage e)

/-- Modelled from the spec: the bindings map is an associative structure from a
term's value to a value, keyed by structural equality (§3, §4.2); rendered as an
association list read front to back. -/
abbrev Bindings := List (Value × Value)

/-- Modelled from the spec: bindings lookup (§4.2). -/
def bGet : Bindings → Value → Option Value
  | [], _ => none
  | (k2, v2) :: rest, k => if valueEqual k2 k then some v2 else bGet rest k

/-- Modelled from the spec: bindings insertion, overwriting the entry with an
equal key when present (§4.2). -/
def bPut : Bindings → Value → Value → Bindings
  | [], k, v => [(k, v)]
  | (k2, v2) :: rest, k, v =>
      if valueEqual k2 k then (k2, v) :: rest else (k2, v2) :: bPut rest k v

/-- Modelled from the spec: `update(other)` merges, entries of `other`
winning (§4.2). -/
def bUpdate (b other : Bindings) : Bindings :=
  other.foldl (fun acc p => bPut acc p.1 p.2) b

/-- Variable branch of plugValue: a bound variable becomes its binding, an
unbound one stays (src plugValue, Var case). -/
def plugVarB (b : Bindings) (x : String) : Value :=
  match bGet b (.var x) with
  | none => .var x
  | some binding => binding

/-- Reference branch of plugValue, taking the already plugged selector terms: a
bound reference becomes its binding, a ground reference is returned unchanged,
and otherwise the head is kept and the plugged selectors are installed
(src plugValue, Ref case). -/
def plugRefCombine (b : Bindings) (ts pluggedTail : List Value) : Value :=
  match bGet b (.ref ts) with
  | some binding => binding
  | none =>
    if isGround (.ref ts) then .ref ts
    else
      match ts with
      | [] => .ref []
      | h :: _ => .ref (h :: pluggedTail)

mutual

/-- plugValue replaces variables and bound or partial references in the value
using the bindings: a bound variable becomes its binding, a bound reference
becomes its binding, a ground reference is returned unchanged, a non-ground
reference keeps its head and plugs its selector terms, arrays and objects are
plugged element-wise, scalars are returned unchanged (src plugValue and
plugTerm; terms collapse to values here). -/
def plugValue (v : Value) (b : Bindings) : Value :=
  match v with
  | .var x => plugVarB b x
  | .ref [] => plugRefCombine b [] []
  | .ref (h :: t) => plugRefCombine b (h :: t) (plugValueList t b)
  | .arr ts => .arr (plugValueList ts b)
  | .obj ps => .obj (plugValuePairs ps b)
  | scalar => scalar

def plugValueList : List Value → Bindings → List Value
  | [], _ => []
  | t :: ts, b => plugValue t b :: plugValueList ts b

def plugValuePairs : List (Value × Value) → Bindings → List (Value × Value)
  | [], _ => []
  | (k, v) :: ps, b => (plugValue k b, plugValue v b) :: plugValuePairs ps b

end

/-- TopDownContext: the state of the evaluation process (src TopDownContext;
the Previous pointer and the tracer feed diagnostics only and are dropped). -/
structure Ctx where
  query : Body
  bindings : Bindings
  index : Nat
  store : Storage

/-- BindRef returns a new context whose bindings map the reference to the value
(src TopDownContext.BindRef). -/
def Ctx.bindRef (ctx : Ctx) (r : List Value) (v : Value) : Ctx :=
  { ctx with bindings := bPut ctx.bindings (.ref r) v }

/-- BindVar returns a new context binding the variable to the value.  Binding a
variable to itself is a no-op; a binding that would be recursive (the value
contains the variable) yields an undefined context, rendered as `none`.  Existing
bindings are eagerly rewritten under the new binding (src
TopDownContext.BindVar). -/
def Ctx.bindVar (ctx : Ctx) (x : String) (value : Value) : Option Ctx :=
  if valueEqual (.var x) value then some ctx
  else if walkValue value (fun other => valueEqual (.var x) other) then none
  else
    let tmp : Bindings := [(.var x, value)]
    let rebuilt := ctx.bindings.map (fun p => (p.1, plugValue p.2 tmp))
    some { ctx with bindings := bPut rebuilt (.var x) value }

/-- Child returns a new context to evaluate a rule referenced by this context
(src TopDownContext.Child). -/
def Ctx.child (ctx : Ctx) (rule : Rule) (b : Bindings) : Ctx :=
  { ctx with query := rule.body, bindings := b, index := 0 }

/-- Current returns the current expression to evaluate (src
TopDownContext.Current; out-of-range access is a Go panic, rendered `none`). -/
def Ctx.current (ctx : Ctx) : Option Expr :=
  ctx.query.get? ctx.index

/-- Step returns a new context for the next expression (src
TopDownContext.Step). -/
def Ctx.step (ctx : Ctx) : Ctx :=
  { ctx with index := ctx.index + 1 }

/-- Sequential emission collector: the rendering of a continuation-passing loop
that calls an emitting function for each element, concatenating the emissions in
order and aborting the iteration on the first error. -/
def seqE {α β ε : Type} : List α → (α → Except ε (List β)) → Except ε (List β)
  | [], _ => .ok []
  | a :: rest, f =>
    match f a with
    | .error e => .error e
    | .ok rs =>
      match seqE rest f with
      | .error e => .error e
      | .ok rest2 => .ok (rs ++ rest2)

/-- Modelled from the spec: inserting into a Go `map[string]...` overwrites the
entry with an equal key (used wherever the source assigns `buf[k] = v`). -/
def objInsert : List (String × Interface) → String → Interface → List (String × Interface)
  | [], k, v => [(k, v)]
  | (k2, v2) :: rest, k, v =>
      if k2 == k then (k2, v) :: rest else (k2, v2) :: objInsert rest k v

mutual

/-- ValueToInterface returns the native value for an AST value: scalars convert
directly, arrays and objects recurse (object keys must convert to strings, the
entries populating a native map), references are fetched from storage, and any
other input — a variable in particular — is a caller bug, a Go panic
(src ValueToInterface). -/
def ValueToInterface (v : Value) (ctx : Ctx) : Except EvalErr Interface :=
  match v with
  | .null => .ok .null
  | .bool b => .ok (.bool b)
  | .num n => .ok (.num n)
  | .str s => .ok (.str s)
  | .arr ts =>
    match arrToInterface ts ctx with
    | .error e => .error e
    | .ok xs => .ok (.arr xs)
  | .obj ps =>
    match objToInterface ps ctx with
    | .error e => .error e
    | .ok kvs => .ok (.obj kvs)
  | .ref r => lookup ctx.store r
  | .var x => .error (.goPanic ("illegal argument: " ++ x))

def arrToInterface : List Value → Ctx → Except EvalErr (List Interface)
  | [], _ => .ok []
  | t :: ts, ctx =>
    match ValueToInterface t ctx with
    | .error e => .error e
    | .ok x =>
      match arrToInterface ts ctx with
      | .error e => .error e
      | .ok xs => .ok (x :: xs)

def objToInterface : List (Value × Value) → Ctx → Except EvalErr (List (String × Interface))
  | [], _ => .ok []
  | (k, v) :: ps, ctx =>
    match ValueToInterface k ctx with
    | .error e => .error e
    | .ok ki =>
      match ki with
      | .str s =>
        match ValueToInterface v ctx with
        | .error e => .error e
        | .ok vi =>
          match objToInterface ps ctx with
          | .error e => .error e
          | .ok kvs => .ok (objInsert kvs s vi)
      | other => .error (.nonStringObjectKey other)

end

/-- dereferenceVar looks up the variable's binding and converts it to a native
value (src dereferenceVar). -/
def dereferenceVar (x : String) (ctx : Ctx) : Except EvalErr Interface :=
  match bGet ctx.bindings (.var x) with
  | none => .error (.unboundVariable (.var x))
  | some binding => ValueToInterface binding ctx

/-- plugExpr plugs an expression's terms: for an operator expression the
operator term is kept and the operands are plugged, for a single-term
expression the term is plugged (src plugExpr). -/
def plugExpr (e : Expr) (b : Bindings) : Expr :=
  match e.terms with
  | .ops ts =>
    match ts with
    | [] => { e with terms := .ops [] }
    | op :: rest => { e with terms := .ops (op :: plugValueList rest b) }
  | .single t => { e with terms := .single (plugValue t b) }

/-- Modelled from the spec: `Array::query` / `Object::query` — given a reference
suffix whose head may be a ground selector or a variable, enumerate every
position satisfying the selector, descending recursively; each hit yields the
bindings chosen for variable selectors together with the value found (§4.1). -/
def valueQuery (v : Value) : List Value → List (List (String × Value) × Value)
  | [] => [([], v)]
  | sel :: rest =>
    match v with
    | .arr ts =>
      match sel with
      | .num i =>
        if i < 0 then []
        else
          match ts.get? i.toNat with
          | none => []
          | some t => valueQuery t rest
      | .var x =>
        ts.enum.flatMap (fun p =>
          (valueQuery p.2 rest).map (fun qr => ((x, Value.num p.1) :: qr.1, qr.2)))
      | _ => []
    | .obj ps =>
      match sel with
      | .var x =>
        ps.flatMap (fun kv =>
          (valueQuery kv.2 rest).map (fun qr => ((x, kv.1) :: qr.1, qr.2)))
      | s =>
        ps.flatMap (fun kv =>
          if valueEqual kv.1 s then valueQuery kv.2 rest else [])
    | _ => []

/-- Modelled from the spec: an index entry associates the concrete value the base
document produces at the reference with the bindings of the reference's
variables that produce it (§4.8). -/
abbrev Index := List (Interface × Bindings)

/-- Modelled from the spec: index construction walks the store following the
reference's ground selectors and enumerates composites at variable selectors,
collecting the variable assignments; each complete walk contributes the value
found and the assignments that reach it (§4.8). -/
def buildIndexRec (store : Storage) (path : Path) (acc : Bindings) :
    List Value → Except StorageError Index
  | [] =>
    match storeGet store path with
    | .error e => .error e
    | .ok v => .ok [(v, acc)]
  | sel :: rest =>
    match sel with
    | .str s => buildIndexRec store (path ++ [.str s]) acc rest
    | .num n => buildIndexRec store (path ++ [.num n]) acc rest
    | .var x =>
      match storeGet store path with
      | .error e => .error e
      | .ok node =>
        match node with
        | .arr xs =>
          seqE (List.range xs.length) (fun i =>
            buildIndexRec store (path ++ [.num i]) (bPut acc (.var x) (.num i)) rest)
        | .obj kvs =>
          seqE kvs (fun kv =>
            buildIndexRec store (path ++ [.str kv.1]) (bPut acc (.var x) (.str kv.1)) rest)
        | _ => .ok []
    | _ => .ok []

/-- Modelled from the spec: see buildIndexRec; the head variable names the
document root (§4.8). -/
def buildIndex (store : Storage) (ref : List Value) : Except StorageError Index :=
  match ref with
  | .var x :: rest => buildIndexRec store [.str x] [] rest
  | _ => .ok []

/-- indexAvailable returns true when the index can be used for the expression:
an equality whose plugged sides leave one side a non-ground reference while the
other side is ground or also a reference (src indexAvailable; the source indexes
the operand terms directly and panics on a malformed equality, which the
compiler rules out — the model returns false there). -/
def indexAvailable (ctx : Ctx) (ts : List Value) : Bool :=
  match ts with
  | op :: t1 :: t2 :: _ =>
    if !valueEqual op (.var "=") then false
    else
      let pa := plugValue t1 ctx.bindings
      let pb := plugValue t2 ctx.bindings
      let isRefA := match pa with | .ref _ => true | _ => false
      let isRefB := match pb with | .ref _ => true | _ => false
      if isRefA && !isGround pa then isGround pb || isRefB
      else if isRefB && !isGround pb then isGround pa || isRefA
      else false
  | _ => false

/-- Prefix walk of indexBuildLazy: the candidate reference must not traverse a
virtual document; storage errors on the walk abort the build, a non-ground
selector ends the walk (src indexBuildLazy; the source drops the error of
`tmp.Underlying()`, rendered by walking from the empty path in that case). -/
def indexWalk (store : Storage) (tmp : List Value) : List Value → Except StorageError Bool
  | [] => .ok true
  | p :: rest =>
    let path :=
      match underlying tmp with
      | .ok pa => pa
      | .error _ => []
    match storeGet store path with
    | .error e => .error e
    | .ok r =>
      match r with
      | .rules _ => .ok false
      | _ => if !isGround p then .ok true else indexWalk store (tmp ++ [p]) rest

/-- indexBuildLazy: a ground reference, a reference whose head variable is bound,
or a reference traversing a virtual document is not indexed; otherwise the index
is built (src indexBuildLazy; the source consults and fills the store's index
cache — the cache memoizes `Indices.Build`, so the pure model rebuilds on use
instead of reading a cache, and the built index is returned directly). -/
def indexBuildLazy (ctx : Ctx) (r : List Value) : Except EvalErr (Option Index) :=
  if isGround (.ref r) then .ok none
  else
    match r with
    | [] => .ok none
    | r0 :: rest =>
      if (bGet ctx.bindings r0).isSome then .ok none
      else
        match indexWalk ctx.store [r0] rest with
        | .error e => .error (.storage e)
        | .ok false => .ok none
        | .ok true =>
          match buildIndex ctx.store r with
          | .error e => .error (.storage e)
          | .ok idx => .ok (some idx)

/-- evalEqGround compares two values with no remaining variables by converting
both to native values (src evalEqGround; the native comparison `Compare` is
modelled by interfaceEqual). -/
def evalEqGround (ctx : Ctx) (a b : Value) : Except EvalErr (List Ctx) :=
  match ValueToInterface a ctx with
  | .error e => .error e
  | .ok av =>
    match ValueToInterface b ctx with
    | .error e => .error e
    | .ok bv => if interfaceEqual av bv then .ok [ctx] else .ok []

/-- First non-ground key among the object pairs, checking the two objects
pairwise in index order, the left object's key before the right one's
(src evalEqUnifyObjects, first loop). -/
def objectsKeyOffender : List (Value × Value) → List (Value × Value) → Option Value
  | (ak, _) :: as_, (bk, _) :: bs =>
    if !isGround ak then some ak
    else if !isGround bk then some bk
    else objectsKeyOffender as_ bs
  | _, _ => none

/-- First non-ground key of a single object (src evalEqUnifyObjectRef, key
check loop). -/
def objectsKeyOffenderSingle : List (Value × Value) → Option Value
  | [] => none
  | (ak, _) :: as_ => if !isGround ak then some ak else objectsKeyOffenderSingle as_

/-- Fold of BindVar over the key bindings yielded by a Query hit
(src evalRefRuleResult, the loop over `keys`). -/
def bindVarList (ctx : Ctx) : List (String × Value) → Option Ctx
  | [] => some ctx
  | (x, v) :: rest =>
    match ctx.bindVar x v with
    | none => none
    | some c2 => bindVarList c2 rest

/-- Context threading of the `Query` callback in evalRefRuleResult: each hit
rebinds the reference to the value found and binds the variable selectors,
reassigning the captured context so the bindings accumulate across hits
(src evalRefRuleResult, Array and Object cases).  A failed BindVar leaves a nil
context in Go, a panic on its next use. -/
def queryThread (ctx : Ctx) (r : List Value) :
    List (List (String × Value) × Value) → Except EvalErr (List Ctx)
  | [] => .ok []
  | (keys, value) :: rest =>
    let c1 := ctx.bindRef r value
    match bindVarList c1 keys with
    | none => .error (.goPanic "nil context")
    | some c2 =>
      match queryThread c2 r rest with
      | .error e => .error e
      | .ok rest2 => .ok (c2 :: rest2)

/-- Context threading of the ground-key branch of evalRefRulePartialSetDoc: for
each child success the captured context is rebound so that the reference prefix
maps to Boolean true, and emitted (src evalRefRulePartialSetDoc). -/
def partialSetFoldGround (ctx : Ctx) (pre : List Value) : List Ctx → List Ctx
  | [] => []
  | _ :: cs =>
    let c2 := ctx.bindRef pre (.bool true)
    c2 :: partialSetFoldGround c2 pre cs

/-- Context threading of the unbound-key branch of evalRefRulePartialSetDoc: for
each child success the child's key binding is read, the key variable of the
caller is bound to it, the reference prefix is bound to Boolean true, and the
resulting context is emitted; the reassigned context carries over to the next
child success (src evalRefRulePartialSetDoc). -/
def partialSetFoldUnbound (ctx : Ctx) (pre : List Value) (key : Value) (rk : Value) :
    List Ctx → Except EvalErr (List Ctx)
  | [] => .ok []
  | c :: cs =>
    match bGet c.bindings rk with
    | none => .error (.unboundVariable rk)
    | some value =>
      match key with
      | .var kv =>
        match ctx.bindVar kv value with
        | none => .error (.goPanic "nil context")
        | some ctx2 =>
          let ctx3 := ctx2.bindRef pre (.bool true)
          match partialSetFoldUnbound ctx3 pre key rk cs with
          | .error e => .error e
          | .ok rest => .ok (ctx3 :: rest)
      | _ => .error (.goPanic "type assertion")

/-- Context threading of the index probe: each binding delta is merged into the
captured context's bindings, which accumulate across deltas, and the context is
emitted after each merge (src evalTermsIndexed, iterateIndex). -/
def indexIterThread (ctx : Ctx) : List Bindings → List Ctx
  | [] => []
  | d :: ds =>
    let c2 := { ctx with bindings := bUpdate ctx.bindings d }
    c2 :: indexIterThread c2 ds

set_option maxHeartbeats 3200000

mutual

/-- evalContext: evaluate the remaining expressions of the context's body.  When
the index has passed the end of the body, the proof is complete: if any binding
value is non-ground nothing is emitted and no error is returned, otherwise the
context is emitted.  A negated current expression goes through negation as
failure, any other expression has its reference terms resolved, is evaluated,
and on success evaluation recurses past it (src evalContext). -/
def evalContext : Nat → Ctx → Except EvalErr (List Ctx)
  | 0, _ => .error .outOfFuel
  | fuel + 1, ctx =>
    if ctx.query.length ≤ ctx.index then
      if ctx.bindings.any (fun p => !isGround p.2) then .ok [] else .ok [ctx]
    else
      match ctx.current with
      | none => .error (.goPanic "index out of range")
      | some e =>
        if e.negated then evalContextNegated fuel ctx
        else
          match evalTerms fuel ctx with
          | .error er => .error er
          | .ok ts =>
            seqE ts (fun c =>
              match evalExpr fuel c with
              | .error er => .error er
              | .ok es => seqE es (fun c2 => evalContext fuel c2.step))

/-- evalContextNegated: evaluate a one-expression body holding the complement of
the current expression under the inherited bindings; if it emits anything the
negated expression fails silently, otherwise evaluation advances past the
expression with the current bindings (src evalContextNegated). -/
def evalContextNegated : Nat → Ctx → Except EvalErr (List Ctx)
  | 0, _ => .error .outOfFuel
  | fuel + 1, ctx =>
    match ctx.current with
    | none => .error (.goPanic "index out of range")
    | some e =>
      match evalContext fuel { ctx with query := [e.complement], index := 0 } with
      | .error er => .error er
      | .ok rs => if rs.isEmpty then evalContext fuel ctx.step else .ok []

/-- evalTerms: resolve the reference terms of the current expression, producing
the contexts under which the expression itself is then evaluated; an equality
eligible for the indexed fast path is probed through the index instead
(src evalTerms). -/
def evalTerms : Nat → Ctx → Except EvalErr (List Ctx)
  | 0, _ => .error .outOfFuel
  | fuel + 1, ctx =>
    match ctx.current with
    | none => .error (.goPanic "index out of range")
    | some expr =>
      let ts :=
        match expr.terms with
        | .ops l => l
        | .single t => [t]
      if indexAvailable ctx ts then evalTermsIdxFirst fuel ctx ts
      else evalTermsRec fuel ctx ts

/-- First arm of the indexed fast path: try to index the first operand
(src evalTerms, indexed branch for ts of index 1). -/
def evalTermsIdxFirst : Nat → Ctx → List Value → Except EvalErr (List Ctx)
  | 0, _, _ => .error .outOfFuel
  | fuel + 1, ctx, ts =>
    match ts with
    | _ :: t1 :: t2 :: _ =>
      match t1 with
      | .ref r1 =>
        match indexBuildLazy ctx r1 with
        | .error e => .error (.indexBuildFailed e)
        | .ok (some idx) => evalTermsIndexed fuel ctx idx t2
        | .ok none => evalTermsIdxSecond fuel ctx ts t1 t2
      | _ => evalTermsIdxSecond fuel ctx ts t1 t2
    | _ => evalTermsRec fuel ctx ts

/-- Second arm of the indexed fast path: try to index the second operand, else
fall back to plain term resolution (src evalTerms, indexed branch for ts of
index 2). -/
def evalTermsIdxSecond : Nat → Ctx → List Value → Value → Value → Except EvalErr (List Ctx)
  | 0, _, _, _, _ => .error .outOfFuel
  | fuel + 1, ctx, ts, t1, t2 =>
    match t2 with
    | .ref r2 =>
      match indexBuildLazy ctx r2 with
      | .error e => .error (.indexBuildFailed e)
      | .ok (some idx) => evalTermsIndexed fuel ctx idx t1
      | .ok none => evalTermsRec fuel ctx ts
    | _ => evalTermsRec fuel ctx ts

/-- evalTermsIndexed: resolve the non-indexed term, then for each resulting
context plug and convert it to a native value and probe the index with it; each
matching binding delta is merged into the context, which is emitted
(src evalTermsIndexed). -/
def evalTermsIndexed : Nat → Ctx → Index → Value → Except EvalErr (List Ctx)
  | 0, _, _, _ => .error .outOfFuel
  | fuel + 1, ctx, idx, nonIndexed =>
    match evalTermsRec fuel ctx [nonIndexed] with
    | .error e => .error e
    | .ok rs =>
      seqE rs (fun c =>
        let plugged := plugValue nonIndexed c.bindings
        match ValueToInterface plugged c with
        | .error e => .error e
        | .ok niv =>
          .ok (indexIterThread c
            ((idx.filter (fun entry => interfaceEqual entry.1 niv)).map (·.2))))

/-- evalTermsRec: walk the terms in order, resolving references and descending
into arrays and objects; when every term is handled the prepared context is
emitted (src evalTermsRec). -/
def evalTermsRec : Nat → Ctx → List Value → Except EvalErr (List Ctx)
  | 0, _, _ => .error .outOfFuel
  | fuel + 1, ctx, ts =>
    match ts with
    | [] => .ok [ctx]
    | head :: tail =>
      match head with
      | .ref r =>
        match evalRef fuel ctx r with
        | .error e => .error e
        | .ok rs => seqE rs (fun c => evalTermsRec fuel c tail)
      | .arr ts2 =>
        match evalTermsRecArray fuel ctx ts2 with
        | .error e => .error e
        | .ok rs => seqE rs (fun c => evalTermsRec fuel c tail)
      | .obj ps =>
        match evalTermsRecObject fuel ctx ps with
        | .error e => .error e
        | .ok rs => seqE rs (fun c => evalTermsRec fuel c tail)
      | _ => evalTermsRec fuel ctx tail

/-- evalTermsRecArray: resolve references nested in an array term, element by
element (src evalTermsRecArray). -/
def evalTermsRecArray : Nat → Ctx → List Value → Except EvalErr (List Ctx)
  | 0, _, _ => .error .outOfFuel
  | fuel + 1, ctx, ts =>
    match ts with
    | [] => .ok [ctx]
    | e :: rest =>
      match e with
      | .ref r =>
        match evalRef fuel ctx r with
        | .error er => .error er
        | .ok rs => seqE rs (fun c => evalTermsRecArray fuel c rest)
      | .arr ts2 =>
        match evalTermsRecArray fuel ctx ts2 with
        | .error er => .error er
        | .ok rs => seqE rs (fun c => evalTermsRecArray fuel c rest)
      | .obj ps =>
        match evalTermsRecObject fuel ctx ps with
        | .error er => .error er
        | .ok rs => seqE rs (fun c => evalTermsRecArray fuel c rest)
      | _ => evalTermsRecArray fuel ctx rest

/-- evalTermsRecObject: resolve references nested in an object term, pair by
pair — a reference key is resolved before the pair's value is examined
(src evalTermsRecObject). -/
def evalTermsRecObject : Nat → Ctx → List (Value × Value) → Except EvalErr (List Ctx)
  | 0, _, _ => .error .outOfFuel
  | fuel + 1, ctx, ps =>
    match ps with
    | [] => .ok [ctx]
    | (k, v) :: rest =>
      match k with
      | .ref kr =>
        match evalRef fuel ctx kr with
        | .error er => .error er
        | .ok rs => seqE rs (fun c => evalTermsRecObjectValue fuel c v rest)
      | _ => evalTermsRecObjectValue fuel ctx v rest

/-- Value half of evalTermsRecObject's pair handling (src evalTermsRecObject,
inner switch on the pair's value). -/
def evalTermsRecObjectValue : Nat → Ctx → Value → List (Value × Value) → Except EvalErr (List Ctx)
  | 0, _, _, _ => .error .outOfFuel
  | fuel + 1, ctx, v, rest =>
    match v with
    | .ref r =>
      match evalRef fuel ctx r with
      | .error er => .error er
      | .ok rs => seqE rs (fun c => evalTermsRecObject fuel c rest)
    | .arr ts =>
      match evalTermsRecArray fuel ctx ts with
      | .error er => .error er
      | .ok rs => seqE rs (fun c => evalTermsRecObject fuel c rest)
    | .obj ps =>
      match evalTermsRecObject fuel ctx ps with
      | .error er => .error er
      | .ok rs => seqE rs (fun c => evalTermsRecObject fuel c rest)
    | _ => evalTermsRecObject fuel ctx rest

/-- evalRef resolves a reference from an empty walked path (src evalRef). -/
def evalRef : Nat → Ctx → List Value → Except EvalErr (List Ctx)
  | 0, _, _ => .error .outOfFuel
  | fuel + 1, ctx, r => evalRefRec fuel ctx r []

/-- evalRefRec walks the reference: an exhausted reference succeeds if its path
is in storage (NotFound is silent), a ground head extends the path, a bound head
variable is treated as a constant, an unbound head variable at the first step
dispatches to rule evaluation when the store holds rules there, and an unbound
head variable beyond the first step enumerates the composite at the walked path,
binding the variable to each key or element index (src evalRefRec). -/
def evalRefRec : Nat → Ctx → List Value → List Value → Except EvalErr (List Ctx)
  | 0, _, _, _ => .error .outOfFuel
  | fuel + 1, ctx, r, path =>
    match r with
    | [] =>
      match lookup ctx.store path with
      | .error (.storage .notFound) => .ok []
      | .error e => .error e
      | .ok _ => .ok [ctx]
    | head :: tail =>
      match head with
      | .var headVar =>
        if path.isEmpty then
          match bGet ctx.bindings (.var headVar) with
          | some binding => evalRefRuleResult fuel ctx r tail binding
          | none =>
            let path2 := path ++ [head]
            match lookup ctx.store path2 with
            | .error (.storage .notFound) => .ok []
            | .error e => .error e
            | .ok node =>
              match node with
              | .rules rules => seqE rules (fun rule => evalRefRule fuel ctx r path2 rule)
              | _ => evalRefRec fuel ctx tail path2
        else
          match bGet ctx.bindings (.var headVar) with
          | some binding => evalRefRec fuel ctx tail (path ++ [binding])
          | none =>
            match lookup ctx.store path with
            | .error (.storage .notFound) => .ok []
            | .error e => .error e
            | .ok node =>
              match node with
              | .obj kvs =>
                seqE kvs (fun kv =>
                  match ctx.bindVar headVar (.str kv.1) with
                  | none => .error (.goPanic "nil context")
                  | some cpy => evalRefRec fuel cpy tail (path ++ [.str kv.1]))
              | .arr xs =>
                seqE (List.range xs.length) (fun i =>
                  match ctx.bindVar headVar (.num i) with
                  | none => .error (.goPanic "nil context")
                  | some cpy => evalRefRec fuel cpy tail (path ++ [.num i]))
              | _ => .error (.nonComposite r path)
      | _ => evalRefRec fuel ctx tail (path ++ [head])

/-- evalRefRule dispatches rule dereference on the document kind
(src evalRefRule). -/
def evalRefRule : Nat → Ctx → List Value → List Value → Rule → Except EvalErr (List Ctx)
  | 0, _, _, _, _ => .error .outOfFuel
  | fuel + 1, ctx, r, path, rule =>
    match rule.docKind with
    | .partialSetDoc => evalRefRulePartialSetDoc fuel ctx r path rule
    | .partialObjectDoc => evalRefRulePartialObjectDoc fuel ctx r path rule
    | .completeDoc => evalRefRuleCompleteDoc fuel ctx r path rule

/-- evalRefRuleCompleteDoc: the suffix past the rule path must be non-empty; the
rule body runs in a child context with fresh bindings and on each success the
suffix is projected through the rule's value, which must be an array or object
(src evalRefRuleCompleteDoc). -/
def evalRefRuleCompleteDoc : Nat → Ctx → List Value → List Value → Rule → Except EvalErr (List Ctx)
  | 0, _, _, _, _ => .error .outOfFuel
  | fuel + 1, ctx, r, path, rule =>
    let suffix := r.drop path.length
    if suffix.isEmpty then .error (.notImplemented r)
    else
      match evalContext fuel (ctx.child rule []) with
      | .error e => .error e
      | .ok rs =>
        seqE rs (fun _ =>
          match rule.value with
          | some (.obj ps) => evalRefRuleResult fuel ctx r suffix (.obj ps)
          | some (.arr ts) => evalRefRuleResult fuel ctx r suffix (.arr ts)
          | some _ => .error (.cannotDereference r)
          | none => .error (.goPanic "nil rule value"))

/-- evalRefRulePartialObjectDoc: the suffix must be non-empty; the plugged first
suffix term is the key.  A ground key is pre-bound to the rule's key variable
and each child success projects the rest of the suffix through the rule's value
grounded in the child; an unbound key runs the body unconstrained and each child
success additionally binds the caller's key variable to the child's key, the
reassigned context carrying across successes (src evalRefRulePartialObjectDoc). -/
def evalRefRulePartialObjectDoc : Nat → Ctx → List Value → List Value → Rule →
    Except EvalErr (List Ctx)
  | 0, _, _, _, _ => .error .outOfFuel
  | fuel + 1, ctx, r, path, rule =>
    match r.drop path.length with
    | [] => .error (.notImplemented r)
    | s0 :: _ =>
      let key := plugValue s0 ctx.bindings
      match rule.key, rule.value with
      | some rk, some rv =>
        if !isGround key then
          match evalContext fuel (ctx.child rule []) with
          | .error e => .error e
          | .ok rs => partialObjFoldUnbound fuel ctx r (r.drop (path.length + 1)) s0 rk rv rs
        else
          match evalContext fuel (ctx.child rule (bPut [] rk key)) with
          | .error e => .error e
          | .ok rs =>
            seqE rs (fun c =>
              match bGet c.bindings rv with
              | none => .error (.unboundVariable rv)
              | some value => evalRefRuleResult fuel ctx r (r.drop (path.length + 1)) value)
      | _, _ => .error (.goPanic "nil rule key or value")

/-- Emission loop of the unbound-key branch of evalRefRulePartialObjectDoc: for
each child success read the child's key and value bindings, bind the caller's
key variable to the child's key — the reassigned context carries to the next
success — and project the remaining suffix through the child's value
(src evalRefRulePartialObjectDoc, unbound branch). -/
def partialObjFoldUnbound : Nat → Ctx → List Value → List Value → Value → Value → Value →
    List Ctx → Except EvalErr (List Ctx)
  | 0, _, _, _, _, _, _, _ => .error .outOfFuel
  | _ + 1, _, _, _, _, _, _, [] => .ok []
  | fuel + 1, ctx, r, rest, s0, rk, rv, c :: cs =>
    match bGet c.bindings rk with
    | none => .error (.unboundVariable rk)
    | some key =>
      match bGet c.bindings rv with
      | none => .error (.unboundVariable rv)
      | some value =>
        match s0 with
        | .var sv =>
          match ctx.bindVar sv key with
          | none => .error (.goPanic "nil context")
          | some ctx2 =>
            match evalRefRuleResult fuel ctx2 r rest value with
            | .error e => .error e
            | .ok rs =>
              match partialObjFoldUnbound fuel ctx2 r rest s0 rk rv cs with
              | .error e => .error e
              | .ok rs2 => .ok (rs ++ rs2)
        | _ => .error (.goPanic "type assertion")

/-- evalRefRulePartialSetDoc: the suffix must be non-empty, and a suffix longer
than one is an undefined dereference through a set — no emissions, no error.
With a one-term suffix, the plugged term is the key: a ground key is pre-bound
to the rule's key variable and each child success binds the whole reference
prefix to Boolean true; an unbound key runs the body unconstrained and each
child success additionally binds the key variable to the child's key value
(src evalRefRulePartialSetDoc). -/
def evalRefRulePartialSetDoc : Nat → Ctx → List Value → List Value → Rule →
    Except EvalErr (List Ctx)
  | 0, _, _, _, _ => .error .outOfFuel
  | fuel + 1, ctx, r, path, rule =>
    match r.drop path.length with
    | [] => .error (.notImplemented r)
    | _ :: _ :: _ => .ok []
    | [s0] =>
      let key := plugValue s0 ctx.bindings
      match rule.key with
      | none => .error (.goPanic "nil rule key")
      | some rk =>
        if !isGround key then
          match evalContext fuel (ctx.child rule []) with
          | .error e => .error e
          | .ok rs => partialSetFoldUnbound ctx (r.take (path.length + 1)) key rk rs
        else
          match evalContext fuel (ctx.child rule (bPut [] rk key)) with
          | .error e => .error e
          | .ok rs => .ok (partialSetFoldGround ctx (r.take (path.length + 1)) rs)

/-- evalRefRuleResult rejoins a rule result with the remaining suffix: a
reference result is concatenated with the suffix and evaluated, each success
rebinding the original reference to the plugged concatenation; an array or
object result is queried with the plugged suffix, each hit rebinding the
reference and binding the variable selectors (iterator errors of the query are
dropped by the source, which returns nil there — the emissions are collected
here and the caller folds over them); a scalar result with a remaining suffix is
undefined, with an empty suffix it is bound to the reference
(src evalRefRuleResult). -/
def evalRefRuleResult : Nat → Ctx → List Value → List Value → Value → Except EvalErr (List Ctx)
  | 0, _, _, _, _ => .error .outOfFuel
  | fuel + 1, ctx, r, suffix, result =>
    match result with
    | .ref res =>
      match evalRefRec fuel ctx suffix res with
      | .error e => .error e
      | .ok rs =>
        .ok (rs.map (fun c => c.bindRef r (plugValue (.ref (res ++ suffix)) c.bindings)))
    | .arr ts =>
      if suffix.isEmpty then .error (.goPanic "illegal value")
      else queryThread ctx r (valueQuery (.arr ts) (plugValueList suffix ctx.bindings))
    | .obj ps =>
      if suffix.isEmpty then .error (.goPanic "illegal value")
      else queryThread ctx r (valueQuery (.obj ps) (plugValueList suffix ctx.bindings))
    | other =>
      if suffix.isEmpty then .ok [ctx.bindRef r other]
      else .ok []

/-- evalExpr evaluates the plugged current expression: an operator expression
dispatches to the built-in named by its head — only equality exists, an unknown
operator being unreachable after compilation; a single-term expression succeeds
on Boolean true, fails silently on Boolean false and is a type error otherwise
(src evalExpr). -/
def evalExpr : Nat → Ctx → Except EvalErr (List Ctx)
  | 0, _ => .error .outOfFuel
  | fuel + 1, ctx =>
    match ctx.current with
    | none => .error (.goPanic "index out of range")
    | some e =>
      let expr := plugExpr e ctx.bindings
      match expr.terms with
      | .ops ts =>
        match ts with
        | .var op :: _ =>
          if op = "=" then evalEq fuel ctx expr
          else .error (.goPanic "unreachable")
        | _ => .error (.goPanic "type assertion")
      | .single t =>
        match t with
        | .bool b => if b then .ok [ctx] else .ok []
        | tv => .error (.implicitCast tv)

/-- evalEq unifies the two operands of an equality expression (src evalEq). -/
def evalEq : Nat → Ctx → Expr → Except EvalErr (List Ctx)
  | 0, _, _ => .error .outOfFuel
  | fuel + 1, ctx, expr =>
    match expr.terms with
    | .ops (_ :: a :: b :: _) => evalEqUnify fuel ctx a b
    | _ => .error (.goPanic "index out of range")

/-- evalEqUnify plugs both sides and dispatches on their shapes: variables bind,
composites unify structurally, and two values with no remaining variables
compare as native values (src evalEqUnify). -/
def evalEqUnify : Nat → Ctx → Value → Value → Except EvalErr (List Ctx)
  | 0, _, _, _ => .error .outOfFuel
  | fuel + 1, ctx, a0, b0 =>
    let a := plugValue a0 ctx.bindings
    let b := plugValue b0 ctx.bindings
    match a with
    | .var av => evalEqUnifyVar fuel ctx av b
    | .obj aps => evalEqUnifyObject fuel ctx aps b
    | .arr ats => evalEqUnifyArray fuel ctx ats b
    | _ =>
      match b with
      | .var bv => evalEqUnifyVar fuel ctx bv a
      | .arr bts => evalEqUnifyArray fuel ctx bts a
      | .obj bps => evalEqUnifyObject fuel ctx bps a
      | _ => evalEqGround ctx a b

/-- evalEqUnifyVar binds the variable to the value; a recursive binding drops
the branch silently (src evalEqUnifyVar). -/
def evalEqUnifyVar : Nat → Ctx → String → Value → Except EvalErr (List Ctx)
  | 0, _, _, _ => .error .outOfFuel
  | _ + 1, ctx, a, b =>
    match ctx.bindVar a b with
    | none => .ok []
    | some ctx2 => .ok [ctx2]

/-- evalEqUnifyArray dispatches an array against a variable, a reference or
another array; any other shape fails silently (src evalEqUnifyArray). -/
def evalEqUnifyArray : Nat → Ctx → List Value → Value → Except EvalErr (List Ctx)
  | 0, _, _, _ => .error .outOfFuel
  | fuel + 1, ctx, a, b =>
    match b with
    | .var bv => evalEqUnifyVar fuel ctx bv (.arr a)
    | .ref br => evalEqUnifyArrayRef fuel ctx a br
    | .arr bts => evalEqUnifyArrays fuel ctx a bts
    | _ => .ok []

/-- evalEqUnifyArrays: arrays of equal length unify element-wise, the evolving
context threading through; a length mismatch or a failed element fails silently
(src evalEqUnifyArrays). -/
def evalEqUnifyArrays : Nat → Ctx → List Value → List Value → Except EvalErr (List Ctx)
  | 0, _, _, _ => .error .outOfFuel
  | fuel + 1, ctx, a, b =>
    if a.length ≠ b.length then .ok []
    else
      match unifyPairwiseLast fuel ctx (a.zip b) with
      | .error e => .error e
      | .ok none => .ok []
      | .ok (some c) => .ok [c]

/-- Element loop shared by array unification: each pair is unified and the last
context the unification emits becomes the context for the next pair — the
source captures it by letting the iterator overwrite a local (src
evalEqUnifyArrays and evalEqUnifyArrayRef, the loop with `tmp`). -/
def unifyPairwiseLast : Nat → Ctx → List (Value × Value) → Except EvalErr (Option Ctx)
  | 0, _, _ => .error .outOfFuel
  | _ + 1, ctx, [] => .ok (some ctx)
  | fuel + 1, ctx, (x, y) :: rest =>
    match evalEqUnify fuel ctx x y with
    | .error e => .error e
    | .ok rs =>
      match rs.getLast? with
      | none => .ok none
      | some c => unifyPairwiseLast fuel c rest

/-- evalEqUnifyArrayRef resolves the reference; the result must be an array of
the same length, each element unifying against the child reference extended with
its index (src evalEqUnifyArrayRef). -/
def evalEqUnifyArrayRef : Nat → Ctx → List Value → List Value → Except EvalErr (List Ctx)
  | 0, _, _, _ => .error .outOfFuel
  | fuel + 1, ctx, a, b =>
    match lookup ctx.store b with
    | .error e => .error e
    | .ok node =>
      match node with
      | .arr slice =>
        if a.length ≠ slice.length then .ok []
        else
          match unifyPairwiseLast fuel ctx
              (a.enum.map (fun p => (p.2, Value.ref (b ++ [.num p.1])))) with
          | .error e => .error e
          | .ok none => .ok []
          | .ok (some c) => .ok [c]
      | _ => .ok []

/-- evalEqUnifyObject dispatches an object against a variable, a reference or
another object; any other shape fails silently (src evalEqUnifyObject). -/
def evalEqUnifyObject : Nat → Ctx → List (Value × Value) → Value → Except EvalErr (List Ctx)
  | 0, _, _, _ => .error .outOfFuel
  | fuel + 1, ctx, a, b =>
    match b with
    | .var bv => evalEqUnifyVar fuel ctx bv (.obj a)
    | .ref br => evalEqUnifyObjectRef fuel ctx a br
    | .obj bps => evalEqUnifyObjects fuel ctx a bps
    | _ => .ok []

/-- evalEqUnifyObjects: objects of different cardinality fail silently; with
equal cardinality every key of both objects must be ground — a non-ground key is
the object-with-variable-key error; then each left pair unifies its value
against the value of every equal key on the right, the evolving context
threading through (src evalEqUnifyObjects). -/
def evalEqUnifyObjects : Nat → Ctx → List (Value × Value) → List (Value × Value) →
    Except EvalErr (List Ctx)
  | 0, _, _, _ => .error .outOfFuel
  | fuel + 1, ctx, a, b =>
    if a.length ≠ b.length then .ok []
    else
      match objectsKeyOffender a b with
      | some k => .error (.objectVariableKey k)
      | none => unifyObjectsOuter fuel ctx a b

/-- Outer pair loop of evalEqUnifyObjects (src evalEqUnifyObjects, loop over
`a`). -/
def unifyObjectsOuter : Nat → Ctx → List (Value × Value) → List (Value × Value) →
    Except EvalErr (List Ctx)
  | 0, _, _, _ => .error .outOfFuel
  | _ + 1, ctx, [], _ => .ok [ctx]
  | fuel + 1, ctx, (ak, av) :: rest, b =>
    match unifyObjectsInner fuel ctx av ak b none with
    | .error e => .error e
    | .ok none => .ok []
    | .ok (some c) => unifyObjectsOuter fuel c rest b

/-- Inner scan of evalEqUnifyObjects: every right pair whose key equals the left
key unifies its value against the left value from the unchanged context, the
last emission overwriting the candidate; a matching pair that leaves no
candidate stops the scan (src evalEqUnifyObjects, loop over `b` with `tmp`). -/
def unifyObjectsInner : Nat → Ctx → Value → Value → List (Value × Value) → Option Ctx →
    Except EvalErr (Option Ctx)
  | 0, _, _, _, _, _ => .error .outOfFuel
  | _ + 1, _, _, _, [], tmp => .ok tmp
  | fuel + 1, ctx, av, ak, (bk, bv) :: rest, tmp =>
    if valueEqual bk ak then
      match evalEqUnify fuel ctx av bv with
      | .error e => .error e
      | .ok rs =>
        match
          (match rs.getLast? with
           | some c => some c
           | none => tmp) with
        | none => .ok none
        | some c => unifyObjectsInner fuel ctx av ak rest (some c)
    else unifyObjectsInner fuel ctx av ak rest tmp

/-- evalEqUnifyObjectRef resolves the reference; every key of the object must be
ground, the result must be a map of the same cardinality, and each pair requires
its key present in the map — a non-string key is an error — unifying the value
against the child reference extended with the key (src evalEqUnifyObjectRef). -/
def evalEqUnifyObjectRef : Nat → Ctx → List (Value × Value) → List Value →
    Except EvalErr (List Ctx)
  | 0, _, _, _ => .error .outOfFuel
  | fuel + 1, ctx, a, b =>
    match lookup ctx.store b with
    | .error e => .error e
    | .ok node =>
      match objectsKeyOffenderSingle a with
      | some k => .error (.objectVariableKey k)
      | none =>
        match node with
        | .obj obj =>
          if obj.length ≠ a.length then .ok []
          else objRefLoop fuel ctx a b obj
        | _ => .ok []

/-- Pair loop of evalEqUnifyObjectRef (src evalEqUnifyObjectRef, loop over `a`
with `tmp`). -/
def objRefLoop : Nat → Ctx → List (Value × Value) → List Value → List (String × Interface) →
    Except EvalErr (List Ctx)
  | 0, _, _, _, _ => .error .outOfFuel
  | _ + 1, ctx, [], _, _ => .ok [ctx]
  | fuel + 1, ctx, (ak, av) :: rest, b, obj =>
    match ak with
    | .str s =>
      match obj.find? (fun p => p.1 == s) with
      | none => .ok []
      | some _ =>
        match evalEqUnify fuel ctx av (.ref (b ++ [.str s])) with
        | .error e => .error e
        | .ok rs =>
          match rs.getLast? with
          | none => .ok []
          | some c => objRefLoop fuel c rest b obj
    | _ => .error (.objectNonStringKey ak)

end

/-- TopDown runs the evaluation algorithm on the context and delivers every
context whose bindings satisfy all expressions of the body (src TopDown). -/
def TopDown (fuel : Nat) (ctx : Ctx) : Except EvalErr (List Ctx) :=
  evalContext fuel ctx

/-- Input parameters of the query interface (src TopDownQueryParams; the tracer
is dropped). -/
structure TopDownQueryParams where
  store : Storage
  path : List String

/-- Undefined represents the absence of bindings satisfying a completely defined
rule; the query entry points otherwise return a native value (src Undefined). -/
inductive QueryResult where
  | undefined
  | val (v : Interface)

/-- The context the query entry points build for a rule body: the rule's body,
no bindings, the parameters' store (src topDownQueryCompleteDoc and friends). -/
def initCtx (params : TopDownQueryParams) (rule : Rule) : Ctx :=
  { query := rule.body, bindings := [], index := 0, store := params.store }

/-- topDownQueryCompleteDoc: more than one rule is the multiple-conflicting-rules
error; otherwise the single rule's body is evaluated and, if any binding set
satisfies it, the rule's value converts to a native value, else the result is
Undefined (src topDownQueryCompleteDoc). -/
def topDownQueryCompleteDoc (fuel : Nat) (params : TopDownQueryParams) (rules : List Rule) :
    Except Err QueryResult :=
  match rules with
  | [] => .error (.eval (.goPanic "index out of range"))
  | r1 :: _ :: _ => .error (.multipleConflictingRules r1.name)
  | [rule] =>
    match evalContext fuel (initCtx params rule) with
    | .error e => .error (.eval e)
    | .ok rs =>
      if rs.isEmpty then .ok .undefined
      else
        match rule.value with
        | none => .error (.eval (.goPanic "nil rule value"))
        | some v =>
          match ValueToInterface v (initCtx params rule) with
          | .error e => .error (.eval e)
          | .ok i => .ok (.val i)

/-- Keys contributed by the emissions of one partial-set rule, in emission
order: each emitted binding set dereferences the rule's key variable
(src topDownQueryPartialSetDoc, inner iterator). -/
def setDocEmissionKeys (key : String) : List Ctx → Except Err (List Interface)
  | [] => .ok []
  | c :: cs =>
    match dereferenceVar key c with
    | .error e => .error (.eval e)
    | .ok v =>
      match setDocEmissionKeys key cs with
      | .error e => .error e
      | .ok vs => .ok (v :: vs)

/-- Keys accumulated across the partial-set rules in rule order
(src topDownQueryPartialSetDoc, outer loop; the key term must be a variable —
the source's type assertion). -/
def setDocKeys (fuel : Nat) (params : TopDownQueryParams) : List Rule → Except Err (List Interface)
  | [] => .ok []
  | rule :: rest =>
    match rule.key with
    | some (.var key) =>
      (match evalContext fuel (initCtx params rule) with
       | .error e => .error (.eval e)
       | .ok rs =>
         match setDocEmissionKeys key rs with
         | .error e => .error e
         | .ok ks =>
           match setDocKeys fuel params rest with
           | .error e => .error e
           | .ok ks2 => .ok (ks ++ ks2))
    | _ => .error (.eval (.goPanic "type assertion"))

/-- topDownQueryPartialSetDoc accumulates, over the rules in order and their
emissions in order, the dereferenced key of each satisfying binding set, and
returns the list (src topDownQueryPartialSetDoc). -/
def topDownQueryPartialSetDoc (fuel : Nat) (params : TopDownQueryParams) (rules : List Rule) :
    Except Err QueryResult :=
  match setDocKeys fuel params rules with
  | .error e => .error e
  | .ok ks => .ok (.val (.arr ks))

/-- Key/value pairs contributed by the emissions of one partial-object rule, in
emission order: each emitted binding set dereferences the rule's key variable —
which must yield a string — and its value variable
(src topDownQueryPartialObjectDoc, inner iterator). -/
def objDocEmissionPairs (kv vv : String) : List Ctx → Except Err (List (String × Interface))
  | [] => .ok []
  | c :: cs =>
    match dereferenceVar kv c with
    | .error e => .error (.eval e)
    | .ok k =>
      match k with
      | .str s =>
        match dereferenceVar vv c with
        | .error e => .error (.eval e)
        | .ok v =>
          match objDocEmissionPairs kv vv cs with
          | .error e => .error e
          | .ok ps => .ok ((s, v) :: ps)
      | other => .error (.nonStringResultKey other)

/-- Key/value pairs accumulated across the partial-object rules in rule order
(src topDownQueryPartialObjectDoc, outer loop; key and value terms must be
variables — the source's type assertions). -/
def objDocPairs (fuel : Nat) (params : TopDownQueryParams) :
    List Rule → Except Err (List (String × Interface))
  | [] => .ok []
  | rule :: rest =>
    match rule.key, rule.value with
    | some (.var kv), some (.var vv) =>
      (match evalContext fuel (initCtx params rule) with
       | .error e => .error (.eval e)
       | .ok rs =>
         match objDocEmissionPairs kv vv rs with
         | .error e => .error e
         | .ok ps =>
           match objDocPairs fuel params rest with
           | .error e => .error e
           | .ok ps2 => .ok (ps ++ ps2))
    | _, _ => .error (.eval (.goPanic "type assertion"))

/-- The result map of topDownQueryPartialObjectDoc: the pairs are written into a
native map in order, a later pair with an equal key overwriting the earlier
entry (src topDownQueryPartialObjectDoc, `result[asStr] = value`). -/
def buildObjDoc (ps : List (String × Interface)) : List (String × Interface) :=
  ps.foldl (fun m p => objInsert m p.1 p.2) []

/-- Read from the native result map. -/
def objFind (m : List (String × Interface)) (k : String) : Option Interface :=
  (m.find? (fun p => p.1 == k)).map (·.2)

/-- topDownQueryPartialObjectDoc evaluates every rule body and builds the map of
dereferenced key/value pairs of the satisfying binding sets
(src topDownQueryPartialObjectDoc). -/
def topDownQueryPartialObjectDoc (fuel : Nat) (params : TopDownQueryParams) (rules : List Rule) :
    Except Err QueryResult :=
  match objDocPairs fuel params rules with
  | .error e => .error e
  | .ok ps => .ok (.val (.obj (buildObjDoc ps)))

/-- TopDownQuery returns the document identified by the path: a base value is
returned as is; a rule set dispatches on the rules' document kind, an empty rule
set being Undefined (src TopDownQuery). -/
def TopDownQuery (fuel : Nat) (params : TopDownQueryParams) : Except Err QueryResult :=
  match params.path with
  | [] => .error (.eval (.goPanic "index out of range"))
  | p0 :: prest =>
    let r : List Value := .var p0 :: prest.map .str
    match lookup params.store r with
    | .error e => .error (.eval e)
    | .ok node =>
      match node with
      | .rules [] => .ok .undefined
      | .rules (r1 :: rest) =>
        match r1.docKind with
        | .completeDoc => topDownQueryCompleteDoc fuel params (r1 :: rest)
        | .partialObjectDoc => topDownQueryPartialObjectDoc fuel params (r1 :: rest)
        | .partialSetDoc => topDownQueryPartialSetDoc fuel params (r1 :: rest)
      | v => .ok (.val v)

/-! Lemmas about the data model. -/

theorem Value.inductionOn {P : Value → Prop}
    (hnull : P .null) (hbool : ∀ b, P (.bool b)) (hnum : ∀ n, P (.num n))
    (hstr : ∀ s, P (.str s)) (hvar : ∀ x, P (.var x))
    (href : ∀ ts, (∀ t ∈ ts, P t) → P (.ref ts))
    (harr : ∀ ts, (∀ t ∈ ts, P t) → P (.arr ts))
    (hobj : ∀ ps, (∀ p ∈ ps, P p.1 ∧ P p.2) → P (.obj ps)) :
    ∀ v, P v := by
  have H : ∀ n v, sizeOf (v : Value) < n → P v := by
    intro n
    induction n with
    | zero => intro v h; omega
    | succ n ih =>
      intro v hv
      match v with
      | .null => exact hnull
      | .bool b => exact hbool b
      | .num m => exact hnum m
      | .str s => exact hstr s
      | .var x => exact hvar x
      | .ref ts =>
        refine href ts (fun t ht => ih t ?_)
        have h1 : sizeOf t < sizeOf ts := List.sizeOf_lt_of_mem ht
        have h2 : sizeOf (Value.ref ts) = 1 + sizeOf ts := by simp
        omega
      | .arr ts =>
        refine harr ts (fun t ht => ih t ?_)
        have h1 : sizeOf t < sizeOf ts := List.sizeOf_lt_of_mem ht
        have h2 : sizeOf (Value.arr ts) = 1 + sizeOf ts := by simp
        omega
      | .obj ps =>
        refine hobj ps (fun p hp => ?_)
        have h1 : sizeOf p < sizeOf ps := List.sizeOf_lt_of_mem hp
        have h2 : sizeOf (Value.obj ps) = 1 + sizeOf ps := by simp
        obtain ⟨a, c⟩ := p
        have h3 : sizeOf (a, c) = 1 + sizeOf a + sizeOf c := by simp
        rw [h3] at h1
        exact ⟨ih a (by omega), ih c (by omega)⟩
  exact fun v => H (sizeOf v + 1) v (by omega)

theorem bGet_mem_range {b : Bindings} {k w : Value} (h : bGet b k = some w) :
    ∃ p ∈ b, p.2 = w := by
  induction b with
  | nil => simp [bGet] at h
  | cons q rest ih =>
    obtain ⟨k2, v2⟩ := q
    by_cases hq : valueEqual k2 k = true
    · simp [bGet, hq] at h
      exact ⟨(k2, v2), by simp, h⟩
    · simp [bGet, hq] at h
      obtain ⟨p, hp, hw⟩ := ih h
      exact ⟨p, by simp [hp], hw⟩

theorem valueEqual_var_ref {x : String} {ts : List Value} :
    valueEqual (.var x) (.ref ts) = false := by
  simp [valueEqual]

theorem bGet_ref_none_of_var_keys {b : Bindings}
    (hkeys : ∀ p ∈ b, ∃ x, p.1 = Value.var x) (ts : List Value) :
    bGet b (.ref ts) = none := by
  induction b with
  | nil => simp [bGet]
  | cons q rest ih =>
    obtain ⟨k2, v2⟩ := q
    obtain ⟨x, hx⟩ := hkeys (k2, v2) (by simp)
    have hx2 : k2 = Value.var x := hx
    subst hx2
    simp only [bGet, valueEqual_var_ref]
    exact ih (fun p hp => hkeys p (by simp [hp]))

theorem plugValueList_idem {b : Bindings} {l : List Value}
    (h : ∀ t ∈ l, plugValue (plugValue t b) b = plugValue t b) :
    plugValueList (plugValueList l b) b = plugValueList l b := by
  induction l with
  | nil => simp [plugValueList]
  | cons t rest ih =>
    simp only [plugValueList, List.cons.injEq]
    exact ⟨h t (by simp), ih (fun t2 ht2 => h t2 (by simp [ht2]))⟩

theorem plugValuePairs_idem {b : Bindings} {l : List (Value × Value)}
    (h : ∀ p ∈ l, plugValue (plugValue p.1 b) b = plugValue p.1 b ∧
        plugValue (plugValue p.2 b) b = plugValue p.2 b) :
    plugValuePairs (plugValuePairs l b) b = plugValuePairs l b := by
  induction l with
  | nil => simp [plugValuePairs]
  | cons p rest ih =>
    obtain ⟨k, v⟩ := p
    simp only [plugValuePairs, List.cons.injEq, Prod.mk.injEq]
    exact ⟨⟨(h (k, v) (by simp)).1, (h (k, v) (by simp)).2⟩,
      ih (fun p2 hp2 => h p2 (by simp [hp2]))⟩

/-! Claim C2. -/

/-- C2, counterexample: with the environment binding x to y and y to 3 — an
environment that BindVar's eager flattening never produces — plugging x twice
gives 3 while plugging once gives y, so plug is not idempotent over arbitrary
environments. -/
theorem plugValue_not_idempotent :
    ¬ (∀ (v : Value) (b : Bindings), plugValue (plugValue v b) b = plugValue v b) := by
  intro h
  have hinst := h (.var "x") [(.var "x", .var "y"), (.var "y", .num 3)]
  have h1 : plugValue (.var "x") [(.var "x", .var "y"), (.var "y", .num 3)] = .var "y" := rfl
  have h2 : plugValue (plugValue (.var "x") [(.var "x", .var "y"), (.var "y", .num 3)])
      [(.var "x", .var "y"), (.var "y", .num 3)] = .num 3 := rfl
  rw [h2, h1] at hinst
  exact absurd hinst (by simp)

/-- C2 (amended): plug is idempotent over every flat, variable-keyed environment
— every key is a variable and every bound value is itself unchanged by plugging,
the invariant BindVar's eager rewriting of existing bindings maintains; over
arbitrary environments (chained bindings such as x to y, y to 3, or an
environment binding a reference that plugging another reference produces)
idempotence fails. -/
theorem plugValue_idempotent (b : Bindings)
    (hkeys : ∀ p ∈ b, ∃ x, p.1 = Value.var x)
    (hrange : ∀ p ∈ b, plugValue p.2 b = p.2) :
    ∀ v, plugValue (plugValue v b) b = plugValue v b := by
  refine Value.inductionOn rfl (fun _ => rfl) (fun _ => rfl) (fun _ => rfl) ?_ ?_ ?_ ?_
  · -- variables
    intro x
    cases hx : bGet b (.var x) with
    | none => simp [plugValue, plugVarB, hx]
    | some w =>
      have e1 : plugValue (.var x) b = w := by
        simp [plugValue, plugVarB, hx]
      rw [e1]
      obtain ⟨p, hp, hw⟩ := bGet_mem_range hx
      have h2 := hrange p hp
      rw [hw] at h2
      exact h2
  · -- references
    intro ts ih
    have hnone := bGet_ref_none_of_var_keys hkeys
    by_cases hg : isGround (.ref ts) = true
    · cases ts with
      | nil => simp [plugValue, plugRefCombine, hnone]
      | cons t rest =>
        have e1 : plugValue (.ref (t :: rest)) b = .ref (t :: rest) := by
          simp [plugValue, plugRefCombine, hnone, hg]
        rw [e1, e1]
    · cases ts with
      | nil => exact absurd (by simp [isGround]) hg
      | cons t rest =>
        have e1 : plugValue (.ref (t :: rest)) b = .ref (t :: plugValueList rest b) := by
          simp [plugValue, plugRefCombine, hnone, hg]
        rw [e1]
        by_cases hg2 : isGround (.ref (t :: plugValueList rest b)) = true
        · simp [plugValue, plugRefCombine, hnone, hg2]
        · have e2 : plugValue (.ref (t :: plugValueList rest b)) b =
              .ref (t :: plugValueList (plugValueList rest b) b) := by
            simp [plugValue, plugRefCombine, hnone, hg2]
          rw [e2, plugValueList_idem (fun t2 ht2 => ih t2 (by simp [ht2]))]
  · -- arrays
    intro ts ih
    have e1 : ∀ l, plugValue (.arr l) b = .arr (plugValueList l b) := fun l => by
      simp [plugValue]
    rw [e1, e1, plugValueList_idem (fun t2 ht2 => ih t2 ht2)]
  · -- objects
    intro ps ih
    have e1 : ∀ l, plugValue (.obj l) b = .obj (plugValuePairs l b) := fun l => by
      simp [plugValue]
    rw [e1, e1, plugValuePairs_idem ih]

/-! Concrete fixtures shared by witnesses and counterexamples. -/

/-- The empty store. -/
abbrev emptyStore : Storage := ⟨[]⟩

/-- A context with an empty body over the empty store. -/
abbrev emptyCtx : Ctx := { query := [], bindings := [], index := 0, store := emptyStore }

/-- A store whose only path fails with an internal storage error. -/
abbrev boomStore : Storage := ⟨[([.str "a"], .error (.internal "boom"))]⟩

/-- A context with an empty body over boomStore. -/
abbrev boomCtx : Ctx := { query := [], bindings := [], index := 0, store := boomStore }

/-- A one-expression body holding a negated always-false expression. -/
abbrev negFalseCtx : Ctx :=
  { query := [{ negated := true, terms := .single (.bool false) }], bindings := [],
    index := 0, store := emptyStore }

/-- A partial-set rule whose body binds its key variable to 1. -/
abbrev pRule : Rule :=
  { name := "p", key := some (.var "x"), value := none,
    body := [{ negated := false, terms := .ops [.var "=", .var "x", .num 1] }] }

/-- A partial-object rule emitting the entry a maps-to 1. -/
abbrev qRuleA1 : Rule :=
  { name := "q", key := some (.var "k"), value := some (.var "v"),
    body := [{ negated := false, terms := .ops [.var "=", .var "k", .str "a"] },
             { negated := false, terms := .ops [.var "=", .var "v", .num 1] }] }

/-- A partial-object rule emitting the entry a maps-to 2. -/
abbrev qRuleA2 : Rule :=
  { name := "q", key := some (.var "k"), value := some (.var "v"),
    body := [{ negated := false, terms := .ops [.var "=", .var "k", .str "a"] },
             { negated := false, terms := .ops [.var "=", .var "v", .num 2] }] }

/-- A complete rule with value 3 and an always-true body. -/
abbrev trueRule : Rule :=
  { name := "t", key := none, value := some (.num 3),
    body := [{ negated := false, terms := .single (.bool true) }] }

/-- A complete rule with value 3 and an always-false body. -/
abbrev falseRule : Rule :=
  { name := "f", key := none, value := some (.num 3),
    body := [{ negated := false, terms := .single (.bool false) }] }

/-! Claim C3. -/

theorem valueEqual_var_true_iff {x : String} {v : Value} :
    valueEqual (.var x) v = true ↔ v = Value.var x := by
  cases v with
  | var y =>
    simp only [valueEqual, beq_iff_eq, Value.var.injEq]
    exact eq_comm
  | _ => simp [valueEqual]

/-- C3, counterexample: the variable x is a value containing x — the source's
own containment test, walkValue with equality to x, says so — yet unifying
x = x emits one result: BindVar treats a variable bound to itself as a no-op
before the occurs check runs, so the branch succeeds with the bindings
unchanged. -/
theorem evalEqUnify_var_self_emits :
    evalEqUnify 2 emptyCtx (.var "x") (.var "x") = .ok [emptyCtx] ∧
    walkValue (.var "x") (fun other => valueEqual (.var "x") other) = true :=
  ⟨by rfl, by rfl⟩

/-- C3 (amended): occurs safety holds for every value properly containing the
variable: if v contains x and v is not x itself, then unifying x = v emits no
results and no error — BindVar detects the occurrence and returns the undefined
context, dropping the branch.  (For v = x itself the equality is a no-op that
emits once.)  The hypotheses state that x is unbound and v already plugged, the
state in which evalEqUnify reaches the variable case. -/
theorem evalEqUnify_occurs_safety (fuel : Nat) (ctx : Ctx) (x : String) (v : Value)
    (hx : plugValue (.var x) ctx.bindings = .var x)
    (hv : plugValue v ctx.bindings = v)
    (hoccurs : walkValue v (fun other => valueEqual (.var x) other) = true)
    (hne : v ≠ .var x) :
    evalEqUnify (fuel + 2) ctx (.var x) v = .ok [] := by
  have hveq : valueEqual (.var x) v = false := by
    cases hq : valueEqual (.var x) v
    · rfl
    · exact absurd (valueEqual_var_true_iff.mp hq) hne
  have hbind : ctx.bindVar x v = none := by
    simp [Ctx.bindVar, hveq, hoccurs]
  have e1 : evalEqUnify (fuel + 2) ctx (.var x) v = evalEqUnifyVar (fuel + 1) ctx x v := by
    simp [evalEqUnify, hx, hv]
  rw [e1]
  simp [evalEqUnifyVar, hbind]

/-- C3, witness for the amended theorem: binding x to an array containing x is
dropped with no emissions. -/
theorem evalEqUnify_occurs_safety_witness :
    evalEqUnify 2 emptyCtx (.var "x") (.arr [.var "x"]) = .ok [] :=
  evalEqUnify_occurs_safety 0 emptyCtx "x" (.arr [.var "x"]) (by rfl) (by rfl) (by rfl)
    (by simp)

/-! Claim C1. -/

theorem seqE_ok_mem {α β ε : Type} {l : List α} {f : α → Except ε (List β)} {rs : List β}
    {c : β} (h : seqE l f = .ok rs) (hc : c ∈ rs) :
    ∃ a ∈ l, ∃ rs2, f a = .ok rs2 ∧ c ∈ rs2 := by
  induction l generalizing rs with
  | nil =>
    simp only [seqE, Except.ok.injEq] at h
    subst h
    simp at hc
  | cons a rest ih =>
    cases hfa : f a with
    | error e => simp [seqE, hfa] at h
    | ok rs1 =>
      cases hrest : seqE rest f with
      | error e => simp [seqE, hfa, hrest] at h
      | ok rs2 =>
        simp only [seqE, hfa, hrest, Except.ok.injEq] at h
        subst h
        rcases List.mem_append.mp hc with hc1 | hc2
        · exact ⟨a, by simp, rs1, hfa, hc1⟩
        · obtain ⟨a2, ha2, rs3, hf3, hc3⟩ := ih hrest hc2
          exact ⟨a2, by simp [ha2], rs3, hf3, hc3⟩

/-- Every context evalContext or evalContextNegated delivers has only ground
binding values: emissions are produced at the end-of-body check alone. -/
theorem evalContext_emissions_ground : ∀ fuel : Nat,
    (∀ (ctx : Ctx) (rs : List Ctx) (c : Ctx), evalContext fuel ctx = .ok rs → c ∈ rs →
      c.bindings.any (fun p => !isGround p.2) = false) ∧
    (∀ (ctx : Ctx) (rs : List Ctx) (c : Ctx), evalContextNegated fuel ctx = .ok rs →
      c ∈ rs → c.bindings.any (fun p => !isGround p.2) = false) := by
  intro fuel
  induction fuel with
| zero =>
  constructor <;> intro ctx rs c h hc <;> simp [evalContext, evalContextNegated] at h
| succ n ih =>
  constructor
  · intro ctx rs c h hc
    by_cases hidx : ctx.query.length ≤ ctx.index
    · simp only [evalContext, hidx, if_true] at h
      by_cases hng : ctx.bindings.any (fun p => !isGround p.2) = true
      · rw [if_pos hng] at h
        simp only [Except.ok.injEq] at h
        subst h
        simp at hc
      · rw [if_neg hng] at h
        simp only [Except.ok.injEq] at h
        subst h
        simp only [List.mem_singleton] at hc
        subst hc
        simpa using hng
    · cases hcur : ctx.current with
      | none => simp [evalContext, hidx, hcur] at h
      | some e =>
        by_cases hneg : e.negated = true
        · simp only [evalContext, hidx, if_false, hcur, hneg, if_true] at h
          exact ih.2 ctx rs c h hc
        · cases hterms : evalTerms n ctx with
          | error er => simp [evalContext, hidx, hcur, hneg, hterms] at h
          | ok ts =>
            simp only [evalContext, hidx, if_false, hcur, hneg, hterms] at h
            obtain ⟨a, _, rs2, hfa, hc2⟩ := seqE_ok_mem h hc
            cases hexpr : evalExpr n a with
            | error er => simp [hexpr] at hfa
            | ok es =>
              simp only [hexpr] at hfa
              obtain ⟨a2, _, rs3, hf3, hc3⟩ := seqE_ok_mem hfa hc2
              exact ih.1 a2.step rs3 c hf3 hc3
  · intro ctx rs c h hc
    cases hcur : ctx.current with
    | none => simp [evalContextNegated, hcur] at h
    | some e =>
      cases hinner : evalContext n { ctx with query := [e.complement], index := 0 } with
      | error er => simp [evalContextNegated, hcur, hinner] at h
      | ok inner =>
        simp only [evalContextNegated, hcur, hinner] at h
        by_cases hempty : inner.isEmpty = true
        · rw [if_pos hempty] at h
          exact ih.1 ctx.step rs c h hc
        · rw [if_neg hempty] at h
          simp only [Except.ok.injEq] at h
          subst h
          simp at hc

/-- C1: when evalContext reaches the end of the body it emits the context iff no
binding value is non-ground, and emits nothing — with no error — otherwise; and
globally, every context any evalContext run delivers to the iterator has only
ground binding values, every emission being produced by that end-of-body
check. -/
theorem evalContext_ground_completeness :
    (∀ (fuel : Nat) (ctx : Ctx), ctx.query.length ≤ ctx.index →
      evalContext (fuel + 1) ctx =
        .ok (if ctx.bindings.any (fun p => !isGround p.2) then [] else [ctx])) ∧
    (∀ (fuel : Nat) (ctx : Ctx) (rs : List Ctx) (c : Ctx),
      evalContext fuel ctx = .ok rs → c ∈ rs →
      c.bindings.any (fun p => !isGround p.2) = false) := by
  constructor
  · intro fuel ctx h
    simp only [evalContext, h, if_true]
    split <;> rfl
  · exact fun fuel => (evalContext_emissions_ground fuel).1


/-- C1, witness: with a non-ground binding nothing is emitted and no error is
returned at the end of an exhausted body. -/
theorem evalContext_ground_completeness_witness :
    evalContext 1 { query := [], bindings := [(.var "x", .var "y")], index := 0,
                    store := emptyStore } = .ok [] := by
  have h := evalContext_ground_completeness.1 0
    { query := [], bindings := [(.var "x", .var "y")], index := 0, store := emptyStore }
    (by simp)
  exact h.trans (by rfl)

/-! Claim C4. -/

/-- C4: for a context whose current expression is negated, evalContextNegated
evaluates the one-expression body holding the complement of that expression
under the inherited bindings; whenever that evaluation completes with the
emission list rs, the negated expression advances past itself with the current
bindings — one call of evalContext on the stepped context — exactly when rs is
empty, and emits nothing with no error when rs is non-empty. -/
theorem evalContextNegated_negation_as_failure (fuel : Nat) (ctx : Ctx) (e : Expr)
    (rs : List Ctx) (hcur : ctx.current = some e)
    (hneg : evalContext fuel { ctx with query := [e.complement], index := 0 } = .ok rs) :
    evalContextNegated (fuel + 1) ctx =
      (if rs.isEmpty then evalContext fuel ctx.step else .ok []) := by
  simp only [evalContextNegated, hcur, hneg]

/-- C4, witness: a negated always-false expression advances, emitting the
stepped context once. -/
theorem evalContextNegated_negation_as_failure_witness :
    evalContextNegated 11 negFalseCtx = .ok [negFalseCtx.step] :=
  (evalContextNegated_negation_as_failure 10 negFalseCtx
    { negated := true, terms := .single (.bool false) } [] rfl rfl).trans (by rfl)

/-! Claim C7. -/

/-- C7: during reference evaluation, a store lookup failing with the NotFound
storage error yields no results for that branch and no error, while a lookup
failing with any other storage error propagates it; this holds at the
exhausted-reference step, at the first-step head variable lookup, and at the
collection lookup backing enumeration of an unbound variable beyond the first
step. -/
theorem evalRefRec_storage_errors (fuel : Nat) (ctx : Ctx) :
    (∀ path, lookup ctx.store path = .error (.storage .notFound) →
      evalRefRec (fuel + 1) ctx [] path = .ok []) ∧
    (∀ path m, lookup ctx.store path = .error (.storage (.internal m)) →
      evalRefRec (fuel + 1) ctx [] path = .error (.storage (.internal m))) ∧
    (∀ x tail, bGet ctx.bindings (.var x) = none →
      lookup ctx.store [Value.var x] = .error (.storage .notFound) →
      evalRefRec (fuel + 1) ctx (.var x :: tail) [] = .ok []) ∧
    (∀ x tail m, bGet ctx.bindings (.var x) = none →
      lookup ctx.store [Value.var x] = .error (.storage (.internal m)) →
      evalRefRec (fuel + 1) ctx (.var x :: tail) [] = .error (.storage (.internal m))) ∧
    (∀ x tail p0 prest, bGet ctx.bindings (.var x) = none →
      lookup ctx.store (p0 :: prest) = .error (.storage .notFound) →
      evalRefRec (fuel + 1) ctx (.var x :: tail) (p0 :: prest) = .ok []) ∧
    (∀ x tail p0 prest m, bGet ctx.bindings (.var x) = none →
      lookup ctx.store (p0 :: prest) = .error (.storage (.internal m)) →
      evalRefRec (fuel + 1) ctx (.var x :: tail) (p0 :: prest) =
        .error (.storage (.internal m))) := by
  refine ⟨fun path h => ?_, fun path m h => ?_, fun x tail hb h => ?_,
    fun x tail m hb h => ?_, fun x tail p0 prest hb h => ?_, fun x tail p0 prest m hb h => ?_⟩
  · simp [evalRefRec, h]
  · simp [evalRefRec, h]
  · simp [evalRefRec, hb, h]
  · simp [evalRefRec, hb, h]
  · simp [evalRefRec, hb, h]
  · simp [evalRefRec, hb, h]

/-- C7, witness: against a store with one erroring path, a missing path is
silent and the erroring path halts the walk with the propagated error. -/
theorem evalRefRec_storage_errors_witness :
    evalRefRec 3 boomCtx [] [.var "missing"] = .ok [] ∧
    evalRefRec 3 boomCtx [] [.var "a"] = .error (.storage (.internal "boom")) :=
  ⟨(evalRefRec_storage_errors 2 boomCtx).1 [.var "missing"] rfl,
   (evalRefRec_storage_errors 2 boomCtx).2.1 [.var "a"] "boom" rfl⟩

/-! Claim C8. -/

theorem objectsKeyOffender_spec :
    ∀ (a b : List (Value × Value)) (k : Value), objectsKeyOffender a b = some k →
      isGround k = false ∧ (k ∈ a.map Prod.fst ∨ k ∈ b.map Prod.fst) := by
  intro a
  induction a with
  | nil => intro b k h; cases b <;> simp [objectsKeyOffender] at h
  | cons p rest ih =>
    intro b k h
    obtain ⟨ak, av⟩ := p
    cases b with
    | nil => simp [objectsKeyOffender] at h
    | cons q bs =>
      obtain ⟨bk, bv⟩ := q
      cases hak : isGround ak with
      | false =>
        simp only [objectsKeyOffender, hak, Bool.not_false, if_true, Option.some.injEq] at h
        subst h
        exact ⟨hak, Or.inl (by simp)⟩
      | true =>
        cases hbk : isGround bk with
        | false =>
          simp only [objectsKeyOffender, hak, hbk, Bool.not_false, Bool.not_true,
            Bool.false_eq_true, if_false, if_true, Option.some.injEq] at h
          subst h
          exact ⟨hbk, Or.inr (by simp)⟩
        | true =>
          simp only [objectsKeyOffender, hak, hbk, Bool.not_true, Bool.false_eq_true,
            if_false] at h
          obtain ⟨hg, hmem⟩ := ih bs k h
          exact ⟨hg, hmem.imp (fun hm => by simp [hm]) (fun hm => by simp [hm])⟩

theorem objectsKeyOffender_isSome :
    ∀ (a b : List (Value × Value)), a.length = b.length →
      ((∃ p ∈ a, isGround p.1 = false) ∨ (∃ p ∈ b, isGround p.1 = false)) →
      (objectsKeyOffender a b).isSome := by
  intro a
  induction a with
  | nil =>
    intro b hlen h
    cases b with
    | nil => simp at h
    | cons q bs => simp at hlen
  | cons p rest ih =>
    intro b hlen h
    obtain ⟨ak, av⟩ := p
    cases b with
    | nil => simp at hlen
    | cons q bs =>
      obtain ⟨bk, bv⟩ := q
      cases hak : isGround ak with
      | false => simp [objectsKeyOffender, hak]
      | true =>
        cases hbk : isGround bk with
        | false => simp [objectsKeyOffender, hak, hbk]
        | true =>
          simp only [objectsKeyOffender, hak, hbk, Bool.not_true, Bool.false_eq_true,
            if_false]
          refine ih bs (by simpa using hlen) ?_
          cases h with
          | inl hm =>
            obtain ⟨p2, hp2, hg2⟩ := hm
            simp at hp2
            cases hp2 with
            | inl he =>
              rw [he] at hg2
              exact absurd hg2 (by simp [hak])
            | inr hmem => exact Or.inl ⟨p2, hmem, hg2⟩
          | inr hm =>
            obtain ⟨p2, hp2, hg2⟩ := hm
            simp at hp2
            cases hp2 with
            | inl he =>
              rw [he] at hg2
              exact absurd hg2 (by simp [hbk])
            | inr hmem => exact Or.inr ⟨p2, hmem, hg2⟩

/-- C8: in object-object unification, differing cardinalities fail silently —
no results and no error, whatever the keys; with equal cardinalities the
pairwise key scan reports its first non-ground key as the
object-with-variable-key error, and such an offending key exists whenever any
key of either object is non-ground.  The offending key named by the error is a
non-ground key of one of the two objects. -/
theorem evalEqUnifyObjects_variable_key (fuel : Nat) (ctx : Ctx)
    (a b : List (Value × Value)) :
    (a.length ≠ b.length → evalEqUnifyObjects (fuel + 1) ctx a b = .ok []) ∧
    (∀ k, a.length = b.length → objectsKeyOffender a b = some k →
      evalEqUnifyObjects (fuel + 1) ctx a b = .error (.objectVariableKey k) ∧
      isGround k = false ∧ (k ∈ a.map Prod.fst ∨ k ∈ b.map Prod.fst)) ∧
    (a.length = b.length →
      ((∃ p ∈ a, isGround p.1 = false) ∨ (∃ p ∈ b, isGround p.1 = false)) →
      (objectsKeyOffender a b).isSome) := by
  refine ⟨fun hne => by simp [evalEqUnifyObjects, hne], fun k hlen hoff => ?_,
    fun hlen h => objectsKeyOffender_isSome a b hlen h⟩
  exact ⟨by simp [evalEqUnifyObjects, hlen, hoff], (objectsKeyOffender_spec a b k hoff).1,
    (objectsKeyOffender_spec a b k hoff).2⟩

/-- C8, witness: equal cardinality with a variable key on the left yields the
error naming that key; the claim's conjuncts applied at concrete objects. -/
theorem evalEqUnifyObjects_variable_key_witness :
    evalEqUnifyObjects 1 emptyCtx [(.var "k", .num 1)] [(.str "a", .num 1)] =
      .error (.objectVariableKey (.var "k")) ∧
    evalEqUnifyObjects 1 emptyCtx [(.var "k", .num 1)] [] = .ok [] :=
  ⟨((evalEqUnifyObjects_variable_key 0 emptyCtx
      [(.var "k", .num 1)] [(.str "a", .num 1)]).2.1 (.var "k") rfl rfl).1,
   (evalEqUnifyObjects_variable_key 0 emptyCtx [(.var "k", .num 1)] []).1 (by simp)⟩

/-- C2, witness for the amended theorem at a concrete flat environment. -/
theorem plugValue_idempotent_witness :
    plugValue (plugValue (.arr [.var "x", .num 5]) [(.var "x", .num 3)]) [(.var "x", .num 3)] =
      plugValue (.arr [.var "x", .num 5]) [(.var "x", .num 3)] :=
  plugValue_idempotent [(.var "x", .num 3)]
    (fun p hp => by
      simp only [List.mem_singleton] at hp
      subst hp
      exact ⟨"x", rfl⟩)
    (fun p hp => by
      simp only [List.mem_singleton] at hp
      subst hp
      rfl)
    (.arr [.var "x", .num 5])

/-! Claim C5. -/

/-- C5, counterexample: two identical partial-set rules each emit key 1, and the
query entry returns the list with the key twice — it does not deduplicate. -/
theorem topDownQueryPartialSetDoc_duplicates :
    topDownQueryPartialSetDoc 20 ⟨emptyStore, ["p"]⟩ [pRule, pRule] =
      .ok (.val (.arr [.num 1, .num 1])) ∧
    ¬ ([Interface.num 1, Interface.num 1].Nodup) :=
  ⟨by rfl, by simp⟩

/-- C5 (amended): topDownQueryPartialSetDoc returns the concatenation, over the
rules in order, of the keys dereferenced from each satisfying grounding in
emission order, duplicates preserved: the contribution of the first rule's
emissions is appended in front of the remaining rules' keys unchanged — no
deduplication takes place. -/
theorem topDownQueryPartialSetDoc_keys (fuel : Nat) (params : TopDownQueryParams)
    (rule : Rule) (rest : List Rule) (key : String) (rs : List Ctx)
    (ks ks2 : List Interface)
    (hkey : rule.key = some (.var key))
    (hrun : evalContext fuel (initCtx params rule) = .ok rs)
    (hks : setDocEmissionKeys key rs = .ok ks)
    (hrest : setDocKeys fuel params rest = .ok ks2) :
    topDownQueryPartialSetDoc fuel params (rule :: rest) = .ok (.val (.arr (ks ++ ks2))) := by
  simp [topDownQueryPartialSetDoc, setDocKeys, hkey, hrun, hks, hrest]

/-- C5, witness for the amended theorem: the two rules contribute their keys in
order, the duplicate surviving. -/
theorem topDownQueryPartialSetDoc_keys_witness :
    topDownQueryPartialSetDoc 20 ⟨emptyStore, ["p"]⟩ [pRule, pRule] =
      .ok (.val (.arr ([Interface.num 1] ++ [Interface.num 1]))) :=
  topDownQueryPartialSetDoc_keys 20 ⟨emptyStore, ["p"]⟩ pRule [pRule] "x"
    [{ query := pRule.body, bindings := [(.var "x", .num 1)], index := 1,
       store := emptyStore }]
    [.num 1] [.num 1] (by rfl) (by rfl) (by rfl) (by rfl)

/-! Claim C10. -/

theorem objFind_objInsert_self (m : List (String × Interface)) (k : String) (v : Interface) :
    objFind (objInsert m k v) k = some v := by
  induction m with
  | nil => simp [objFind, objInsert]
  | cons p rest ih =>
    obtain ⟨k2, v2⟩ := p
    by_cases hk : (k2 == k) = true
    · simp [objFind, objInsert, hk]
    · simp only [objInsert, hk, Bool.false_eq_true, if_false]
      simpa [objFind, hk] using ih

theorem objFind_objInsert_other (m : List (String × Interface)) (k k2 : String)
    (v : Interface) (h : (k2 == k) = false) :
    objFind (objInsert m k2 v) k = objFind m k := by
  induction m with
  | nil => simp [objFind, objInsert, h]
  | cons p rest ih =>
    obtain ⟨k3, v3⟩ := p
    by_cases hk : (k3 == k2) = true
    · have hk3 : (k3 == k) = false := by
        have he : k3 = k2 := by simpa using hk
        subst he
        exact h
      simp [objFind, objInsert, hk, hk3]
    · simp only [objInsert, hk, Bool.false_eq_true, if_false]
      by_cases hk4 : (k3 == k) = true
      · simp [objFind, hk4]
      · simpa [objFind, hk4] using ih

theorem objFind_foldl_insert (k : String) :
    ∀ (ps : List (String × Interface)) (m : List (String × Interface)),
      objFind (ps.foldl (fun m2 p => objInsert m2 p.1 p.2) m) k =
        ((ps.reverse.find? (fun p => p.1 == k)).map (·.2)).or (objFind m k) := by
  intro ps
  induction ps with
  | nil => intro m; simp
  | cons p rest ih =>
    intro m
    simp only [List.foldl_cons, List.reverse_cons]
    rw [ih]
    rw [List.find?_append]
    cases hfind : rest.reverse.find? (fun p => p.1 == k) with
    | some p2 => simp [Option.or]
    | none =>
      simp only [Option.map_none, Option.or]
      by_cases hpk : (p.1 == k) = true
      · have he : p.1 = k := by simpa using hpk
        rw [← he]
        simp [List.find?, hpk, Option.or, objFind_objInsert_self, he]
      · simp only [List.find?, hpk]
        simp [Option.or, objFind_objInsert_other m k p.1 p.2 (by simpa using hpk)]

/-- C10: the partial-object query entry succeeds whenever its key/value pair
stream does — a key produced twice is not an error — and its result map reads,
for every key, the value of the last pair carrying that key: a later grounding's
value silently overwrites an earlier one, within one rule or across rules in
list order. -/
theorem topDownQueryPartialObjectDoc_last_write_wins (fuel : Nat)
    (params : TopDownQueryParams) (rules : List Rule) (ps : List (String × Interface))
    (h : objDocPairs fuel params rules = .ok ps) :
    topDownQueryPartialObjectDoc fuel params rules = .ok (.val (.obj (buildObjDoc ps))) ∧
    ∀ k, objFind (buildObjDoc ps) k =
      (ps.reverse.find? (fun p => p.1 == k)).map (·.2) := by
  constructor
  · simp [topDownQueryPartialObjectDoc, h]
  · intro k
    have h2 := objFind_foldl_insert k ps []
    simpa [buildObjDoc, objFind, Option.or_none] using h2

/-- C10, witness: two rules produce the key a with values 1 then 2; the result
map holds 2 and no error occurs. -/
theorem topDownQueryPartialObjectDoc_last_write_wins_witness :
    topDownQueryPartialObjectDoc 30 ⟨emptyStore, ["q"]⟩ [qRuleA1, qRuleA2] =
      .ok (.val (.obj [("a", .num 2)])) :=
  ((topDownQueryPartialObjectDoc_last_write_wins 30 ⟨emptyStore, ["q"]⟩ [qRuleA1, qRuleA2]
    [("a", .num 1), ("a", .num 2)] (by rfl)).1).trans (by rfl)

/-! Claim C6. -/

/-- C6: the complete-document query entry returns the multiple-conflicting-rules
error exactly when more than one rule is present — with two or more rules it is
returned naming the first rule, and whenever it is returned the rule list had at
least two rules; with exactly one rule, when the body evaluation completes, the
result is Undefined exactly when no binding set satisfied the body, and
otherwise the rule's value converted to a native value; and TopDownQuery
dispatches a path resolving to complete-document rules to this entry. -/
theorem topDownQueryCompleteDoc_conflict (fuel : Nat) (params : TopDownQueryParams) :
    (∀ r1 r2 rest, topDownQueryCompleteDoc fuel params (r1 :: r2 :: rest) =
      .error (.multipleConflictingRules r1.name)) ∧
    (∀ rules n, topDownQueryCompleteDoc fuel params rules =
      .error (.multipleConflictingRules n) → 2 ≤ rules.length) ∧
    (∀ rule rs, evalContext fuel (initCtx params rule) = .ok rs →
      (rs = [] → topDownQueryCompleteDoc fuel params [rule] = .ok .undefined) ∧
      (rs ≠ [] → ∀ v, rule.value = some v →
        topDownQueryCompleteDoc fuel params [rule] =
          (match ValueToInterface v (initCtx params rule) with
           | .error e => .error (.eval e)
           | .ok i => .ok (.val i)))) ∧
    (∀ p0 prest r1 rrest, params.path = p0 :: prest →
      lookup params.store (.var p0 :: prest.map .str) = .ok (.rules (r1 :: rrest)) →
      r1.docKind = .completeDoc →
      TopDownQuery fuel params = topDownQueryCompleteDoc fuel params (r1 :: rrest)) := by
  refine ⟨fun r1 r2 rest => by simp [topDownQueryCompleteDoc], ?_, ?_, ?_⟩
  · intro rules n h
    match rules with
    | [] => simp [topDownQueryCompleteDoc] at h
    | [rule] =>
      cases hrun : evalContext fuel (initCtx params rule) with
      | error e => simp [topDownQueryCompleteDoc, hrun] at h
      | ok rs =>
        by_cases hempty : rs.isEmpty = true
        · simp [topDownQueryCompleteDoc, hrun, hempty] at h
        · cases hv : rule.value with
          | none => simp [topDownQueryCompleteDoc, hrun, hempty, hv] at h
          | some v =>
            cases hvi : ValueToInterface v (initCtx params rule) with
            | error e => simp [topDownQueryCompleteDoc, hrun, hempty, hv, hvi] at h
            | ok i => simp [topDownQueryCompleteDoc, hrun, hempty, hv, hvi] at h
    | r1 :: r2 :: rest => simp
  · intro rule rs hrun
    constructor
    · intro he
      subst he
      simp [topDownQueryCompleteDoc, hrun]
    · intro hne v hv
      have hempty : rs.isEmpty = false := by
        cases rs with
        | nil => exact absurd rfl hne
        | cons a l => rfl
      simp [topDownQueryCompleteDoc, hrun, hempty, hv]
  · intro p0 prest r1 rrest hpath hlookup hkind
    simp [TopDownQuery, hpath, hlookup, hkind]

/-- C6, witness: two copies of a complete rule conflict; a single unsatisfied
rule is Undefined; a single satisfied rule returns its converted value. -/
theorem topDownQueryCompleteDoc_conflict_witness :
    topDownQueryCompleteDoc 10 ⟨emptyStore, ["t"]⟩ [trueRule, trueRule] =
      .error (.multipleConflictingRules "t") ∧
    topDownQueryCompleteDoc 10 ⟨emptyStore, ["f"]⟩ [falseRule] = .ok .undefined ∧
    topDownQueryCompleteDoc 10 ⟨emptyStore, ["t"]⟩ [trueRule] = .ok (.val (.num 3)) := by
  refine ⟨(topDownQueryCompleteDoc_conflict 10 ⟨emptyStore, ["t"]⟩).1 trueRule trueRule [],
    ((topDownQueryCompleteDoc_conflict 10 ⟨emptyStore, ["f"]⟩).2.2.1 falseRule []
      (by rfl)).1 rfl, ?_⟩
  have h := ((topDownQueryCompleteDoc_conflict 10 ⟨emptyStore, ["t"]⟩).2.2.1 trueRule
    [{ query := trueRule.body, bindings := [], index := 1, store := emptyStore }]
    (by rfl)).2 (by simp) (.num 3) rfl
  exact h.trans (by rfl)

/-! Claim C9. -/

theorem valueEqualList_refl (l : List Value) (h : ∀ t ∈ l, valueEqual t t = true) :
    valueEqualList l l = true := by
  induction l with
  | nil => rfl
  | cons t rest ih =>
    simp only [valueEqualList, Bool.and_eq_true]
    exact ⟨h t (by simp), ih (fun t2 ht2 => h t2 (by simp [ht2]))⟩

theorem valueEqualPairs_of_mem (a b : List (Value × Value)) (hsub : ∀ p ∈ a, p ∈ b)
    (h : ∀ p ∈ a, valueEqual p.1 p.1 = true ∧ valueEqual p.2 p.2 = true) :
    valueEqualPairs a b = true := by
  induction a with
  | nil => rfl
  | cons p rest ih =>
    obtain ⟨k, v⟩ := p
    simp only [valueEqualPairs, Bool.and_eq_true]
    constructor
    · refine List.any_eq_true.mpr ⟨(k, v), hsub (k, v) (by simp), ?_⟩
      have h2 := h (k, v) (by simp)
      simp [h2.1, h2.2]
    · exact ih (fun p2 hp2 => hsub p2 (by simp [hp2]))
        (fun p2 hp2 => h p2 (by simp [hp2]))

theorem valueEqual_refl : ∀ v : Value, valueEqual v v = true := by
  refine Value.inductionOn rfl (fun b => by simp [valueEqual]) (fun n => by simp [valueEqual])
    (fun s => by simp [valueEqual]) (fun x => by simp [valueEqual]) ?_ ?_ ?_
  · intro ts ih
    simpa [valueEqual] using valueEqualList_refl ts ih
  · intro ts ih
    simpa [valueEqual] using valueEqualList_refl ts ih
  · intro ps ih
    simp only [valueEqual, Bool.and_eq_true, beq_self_eq_true, true_and]
    exact valueEqualPairs_of_mem ps ps (fun p hp => hp) ih

theorem bGet_bPut_self (b : Bindings) (k v : Value) :
    bGet (bPut b k v) k = some v := by
  induction b with
  | nil => simp [bGet, bPut, valueEqual_refl]
  | cons p rest ih =>
    obtain ⟨k2, v2⟩ := p
    by_cases hk : valueEqual k2 k = true
    · simp [bGet, bPut, hk]
    · simp [bGet, bPut, hk, ih]

theorem valueEqual_ref_true_shape {a : Value} {r : List Value}
    (h : valueEqual a (.ref r) = true) : ∃ l, a = Value.ref l := by
  cases a <;> simp [valueEqual] at h ⊢

theorem bGet_bPut_ref_var (b : Bindings) (r : List Value) (v : Value) (x : String) :
    bGet (bPut b (.ref r) v) (.var x) = bGet b (.var x) := by
  induction b with
  | nil => simp [bGet, bPut, valueEqual]
  | cons p rest ih =>
    obtain ⟨k2, v2⟩ := p
    by_cases hk : valueEqual k2 (.ref r) = true
    · obtain ⟨l, hl⟩ := valueEqual_ref_true_shape hk
      subst hl
      have hlr : valueEqualList l r = true := by simpa [valueEqual] using hk
      simp [bGet, bPut, hlr, valueEqual]
    · by_cases hx : valueEqual k2 (.var x) = true
      · simp [bGet, bPut, hk, hx]
      · simp [bGet, bPut, hk, hx, ih]

theorem bGet_ground {b : Bindings} {k w : Value}
    (hg : b.any (fun p => !isGround p.2) = false) (h : bGet b k = some w) :
    isGround w = true := by
  obtain ⟨p, hp, hw⟩ := bGet_mem_range h
  rw [List.any_eq_false] at hg
  have h2 := hg p hp
  rw [hw] at h2
  simpa using h2

theorem partialSetFoldGround_mem (pre : List Value) :
    ∀ (cs : List Ctx) (ctx : Ctx) (c : Ctx), c ∈ partialSetFoldGround ctx pre cs →
      bGet c.bindings (.ref pre) = some (.bool true) := by
  intro cs
  induction cs with
  | nil => intro ctx c hc; simp [partialSetFoldGround] at hc
  | cons cc ccs ih =>
    intro ctx c hc
    simp only [partialSetFoldGround, List.mem_cons] at hc
    cases hc with
    | inl he =>
      subst he
      exact bGet_bPut_self ctx.bindings (.ref pre) (.bool true)
    | inr hm => exact ih _ c hm

theorem partialSetFoldUnbound_mem (pre : List Value) (kv : String) (rk : Value) :
    ∀ (cs : List Ctx) (ctx : Ctx) (rs : List Ctx),
      (∀ cc ∈ cs, cc.bindings.any (fun p => !isGround p.2) = false) →
      partialSetFoldUnbound ctx pre (.var kv) rk cs = .ok rs →
      ∀ c ∈ rs,
        bGet c.bindings (.ref pre) = some (.bool true) ∧
        ∃ cc ∈ cs, ∃ v, bGet cc.bindings rk = some v ∧
          bGet c.bindings (.var kv) = some v := by
  intro cs
  induction cs with
  | nil =>
    intro ctx rs hg h c hc
    simp only [partialSetFoldUnbound, Except.ok.injEq] at h
    subst h
    simp at hc
  | cons cc ccs ih =>
    intro ctx rs hg h c hc
    cases hrk : bGet cc.bindings rk with
    | none => simp [partialSetFoldUnbound, hrk] at h
    | some value =>
      have hvg : isGround value = true := bGet_ground (hg cc (by simp)) hrk
      cases hbv : ctx.bindVar kv value with
      | none => simp [partialSetFoldUnbound, hrk, hbv] at h
      | some ctx2 =>
        cases hfold : partialSetFoldUnbound (ctx2.bindRef pre (.bool true)) pre
            (.var kv) rk ccs with
        | error e => simp [partialSetFoldUnbound, hrk, hbv, hfold] at h
        | ok rest =>
          simp only [partialSetFoldUnbound, hrk, hbv, hfold, Except.ok.injEq] at h
          subst h
          have hctx2 : ctx2.bindings =
              bPut (ctx.bindings.map (fun p => (p.1, plugValue p.2 [(.var kv, value)])))
                (.var kv) value := by
            have hne : valueEqual (.var kv) value = false := by
              cases hq : valueEqual (.var kv) value
              · rfl
              · have he := valueEqual_var_true_iff.mp hq
                rw [he] at hvg
                simp [isGround] at hvg
            simp only [Ctx.bindVar, hne, Bool.false_eq_true, if_false] at hbv
            cases hw : walkValue value (fun other => valueEqual (.var kv) other) with
            | true => rw [hw] at hbv; simp at hbv
            | false =>
              rw [hw] at hbv
              simp only [Bool.false_eq_true, if_false, Option.some.injEq] at hbv
              rw [← hbv]
          simp only [List.mem_cons] at hc
          cases hc with
          | inl he =>
            subst he
            refine ⟨bGet_bPut_self _ _ _, cc, by simp, value, hrk, ?_⟩
            show bGet (bPut ctx2.bindings (.ref pre) (.bool true)) (.var kv) = some value
            rw [bGet_bPut_ref_var, hctx2]
            exact bGet_bPut_self _ _ _
          | inr hm =>
            obtain ⟨h1, cc2, hcc2, v, hv1, hv2⟩ :=
              ih (ctx2.bindRef pre (.bool true)) rest
                (fun cc3 hcc3 => hg cc3 (by simp [hcc3])) hfold c hm
            exact ⟨h1, cc2, by simp [hcc2], v, hv1, hv2⟩

/-- C9: for a partial-set rule, a reference suffix longer than one term yields no
emissions and no error (undefined); with a suffix of exactly one term, every
emitted context binds the reference prefix of length one past the rule path to
Boolean true, and when the plugged key term is an unbound variable, every
emitted context additionally binds that variable to the key value of one of the
child evaluation's emissions. -/
theorem evalRefRulePartialSetDoc_spec (fuel : Nat) (ctx : Ctx) (r path : List Value)
    (rule : Rule) :
    (∀ s0 s1 srest, r.drop path.length = s0 :: s1 :: srest →
      evalRefRulePartialSetDoc (fuel + 1) ctx r path rule = .ok []) ∧
    (∀ s0 rs, r.drop path.length = [s0] →
      evalRefRulePartialSetDoc (fuel + 1) ctx r path rule = .ok rs →
      ∀ c ∈ rs, bGet c.bindings (.ref (r.take (path.length + 1))) = some (.bool true)) ∧
    (∀ s0 kv rk childRs rs, r.drop path.length = [s0] →
      plugValue s0 ctx.bindings = .var kv →
      rule.key = some rk →
      evalContext fuel (ctx.child rule []) = .ok childRs →
      evalRefRulePartialSetDoc (fuel + 1) ctx r path rule = .ok rs →
      ∀ c ∈ rs, ∃ cc ∈ childRs, ∃ v, bGet cc.bindings rk = some v ∧
        bGet c.bindings (.var kv) = some v) := by
  refine ⟨fun s0 s1 srest h => by simp [evalRefRulePartialSetDoc, h], ?_, ?_⟩
  · intro s0 rs hdrop h c hc
    cases hkey : rule.key with
    | none => simp [evalRefRulePartialSetDoc, hdrop, hkey] at h
    | some rk =>
      by_cases hg : isGround (plugValue s0 ctx.bindings) = true
      · cases hchild : evalContext fuel (ctx.child rule
            (bPut [] rk (plugValue s0 ctx.bindings))) with
        | error e => simp [evalRefRulePartialSetDoc, hdrop, hkey, hg, hchild] at h
        | ok childRs =>
          simp only [evalRefRulePartialSetDoc, hdrop, hkey, hg, Bool.not_true,
            Bool.false_eq_true, if_false, hchild, Except.ok.injEq] at h
          subst h
          exact partialSetFoldGround_mem _ childRs ctx c hc
      · have hg2 : isGround (plugValue s0 ctx.bindings) = false := by
          simpa using hg
        cases hchild : evalContext fuel (ctx.child rule []) with
        | error e => simp [evalRefRulePartialSetDoc, hdrop, hkey, hg2, hchild] at h
        | ok childRs =>
          cases hk : plugValue s0 ctx.bindings with
          | var kv =>
            simp only [evalRefRulePartialSetDoc, hdrop, hkey, hk, isGround,
              Bool.not_false, if_true, hchild] at h
            exact (partialSetFoldUnbound_mem _ kv rk childRs ctx rs
              (fun cc hcc => (evalContext_emissions_ground fuel).1 _ childRs cc hchild hcc)
              h c hc).1
          | null =>
            rw [hk] at hg2
            simp [isGround] at hg2
          | bool b =>
            rw [hk] at hg2
            simp [isGround] at hg2
          | num n =>
            rw [hk] at hg2
            simp [isGround] at hg2
          | str s2 =>
            rw [hk] at hg2
            simp [isGround] at hg2
          | ref ts =>
            rw [hk] at hg2
            cases childRs with
            | nil =>
              simp only [evalRefRulePartialSetDoc, hdrop, hkey, hk, hg2,
                Bool.not_false, if_true, hchild, partialSetFoldUnbound,
                Except.ok.injEq] at h
              subst h
              simp at hc
            | cons cc ccs =>
              cases hrk : bGet cc.bindings rk with
              | none =>
                simp [evalRefRulePartialSetDoc, hdrop, hkey, hk, hg2, hchild,
                  partialSetFoldUnbound, hrk] at h
              | some value =>
                simp [evalRefRulePartialSetDoc, hdrop, hkey, hk, hg2, hchild,
                  partialSetFoldUnbound, hrk] at h
          | arr ts =>
            rw [hk] at hg2
            cases childRs with
            | nil =>
              simp only [evalRefRulePartialSetDoc, hdrop, hkey, hk, hg2,
                Bool.not_false, if_true, hchild, partialSetFoldUnbound,
                Except.ok.injEq] at h
              subst h
              simp at hc
            | cons cc ccs =>
              cases hrk : bGet cc.bindings rk with
              | none =>
                simp [evalRefRulePartialSetDoc, hdrop, hkey, hk, hg2, hchild,
                  partialSetFoldUnbound, hrk] at h
              | some value =>
                simp [evalRefRulePartialSetDoc, hdrop, hkey, hk, hg2, hchild,
                  partialSetFoldUnbound, hrk] at h
          | obj ps =>
            rw [hk] at hg2
            cases childRs with
            | nil =>
              simp only [evalRefRulePartialSetDoc, hdrop, hkey, hk, hg2,
                Bool.not_false, if_true, hchild, partialSetFoldUnbound,
                Except.ok.injEq] at h
              subst h
              simp at hc
            | cons cc ccs =>
              cases hrk : bGet cc.bindings rk with
              | none =>
                simp [evalRefRulePartialSetDoc, hdrop, hkey, hk, hg2, hchild,
                  partialSetFoldUnbound, hrk] at h
              | some value =>
                simp [evalRefRulePartialSetDoc, hdrop, hkey, hk, hg2, hchild,
                  partialSetFoldUnbound, hrk] at h
  · intro s0 kv rk childRs rs hdrop hplug hkey hchild h c hc
    simp only [evalRefRulePartialSetDoc, hdrop, hplug, hkey, isGround, Bool.not_false,
      if_true, hchild] at h
    exact (partialSetFoldUnbound_mem _ kv rk childRs ctx rs
      (fun cc hcc => (evalContext_emissions_ground fuel).1 _ childRs cc hchild hcc)
      h c hc).2

/-- The context the one-term-suffix dereference of pRule through p[y] emits. -/
abbrev setEmit : Ctx :=
  { query := [], bindings := [(Value.var "y", Value.num 1),
      (Value.ref [Value.var "p", Value.var "y"], Value.bool true)],
    index := 0, store := emptyStore }

/-- The emission of pRule's body evaluated in a child context. -/
abbrev setChildEmit : Ctx :=
  { query := pRule.body, bindings := [(Value.var "x", Value.num 1)], index := 1,
    store := emptyStore }

/-- C9, witness: dereferencing the partial-set rule p through p[y] with y unbound
emits one context, which binds the whole reference prefix to Boolean true and y
to the child's key value 1. -/
theorem evalRefRulePartialSetDoc_spec_witness :
    evalRefRulePartialSetDoc 21 emptyCtx [.var "p", .var "y"] [.var "p"] pRule =
      .ok [setEmit] ∧
    bGet setEmit.bindings (.ref ([Value.var "p", Value.var "y"].take 2)) =
      some (.bool true) ∧
    (∃ cc ∈ [setChildEmit], ∃ v, bGet cc.bindings (.var "x") = some v ∧
      bGet setEmit.bindings (.var "y") = some v) := by
  refine ⟨by rfl, ?_, ?_⟩
  · exact (evalRefRulePartialSetDoc_spec 20 emptyCtx [.var "p", .var "y"] [.var "p"]
      pRule).2.1 (.var "y") [setEmit] (by rfl) (by rfl) setEmit (by simp)
  · exact (evalRefRulePartialSetDoc_spec 20 emptyCtx [.var "p", .var "y"] [.var "p"]
      pRule).2.2 (.var "y") "y" (.var "x") [setChildEmit] [setEmit] (by rfl) (by rfl)
      (by rfl) (by rfl) (by rfl) setEmit (by simp)

end Opa
